import Mathlib

/-!
The shell `sshell`: tokenizer, pipeline descriptor, syntax validator, pipeline
executor and list of background jobs.

A shallow embedding of `src/sshell.c`.

Representation choices.

* A C string is the list of its characters before the terminating NUL
  (`Token`, and the command line `cmd`).
* A writable character buffer is a `List (Option Char)`: `none` is the NUL
  byte, `some c` any other byte.
* `char **args` is a `List (Option Token)`; `none` is a NULL slot.
* C `int`s are `Int`; every value the code computes here is an index into
  a line of at most 512 characters, so no arithmetic wraps.
* What a function prints on `stderr` is returned next to its return value.
* `open(2)`, `fork(2)` and `waitpid(2)` are oracles passed as parameters.
* The linked list of background jobs is the list of its nodes in link order;
  a node carries its address, which is what pointer comparisons compare.
* Memory that nobody has written yet holds indeterminate values, passed as
  parameters.
* A store through an index outside an array is undefined in C; in the
  embedding such a store leaves the array unchanged, and a read outside
  it yields the stated default.
-/

namespace Sshell

/-- A C string: the characters before the terminating NUL. -/
abbrev Token := List Char

/-- The constant `SUCCESS`, defined as 0. -/
def SUCCESS : Int := 0

/-- The constant `FAILURE`, defined as 1. -/
def FAILURE : Int := 1

/-- The constant `MAX_PIPES`, defined as 3. -/
def MAX_PIPES : Nat := 3

/-- The constant `MAX_COMMANDS`, defined as 4. -/
def MAX_COMMANDS : Nat := 4

/-- Number of slots `getArgs` allocates: `malloc(25 * sizeof(char *))`. -/
def ARGS_SLOTS : Nat := 25

/-- The diagnostics the parsing code prints on `stderr`. -/
inductive ErrMsg where
  | TooManyArguments
  | MissingCommand
  | NoOutputFile
  | MisplacedBackground
  | MisplacedRedirection
  | CannotOpenOutputFile
  deriving DecidableEq, Repr

/-- The text of each diagnostic, as passed to `fprintf(stderr, ...)`. -/
def ErrMsg.text : ErrMsg → String
  | .TooManyArguments => "Error: too many process arguments\n"
  | .MissingCommand => "Error: missing command\n"
  | .NoOutputFile => "Error: no output file\n"
  | .MisplacedBackground => "Error: mislocated background sign\n"
  | .MisplacedRedirection => "Error: mislocated output redirection\n"
  | .CannotOpenOutputFile => "Error: cannot open output file\n"

/-- The operator strings `parseCmd` stores with `addSpecialChars`. -/
def opPipe : Token := ['|']

/-- The string `">"`. -/
def opRedirect : Token := ['>']

/-- The string `">>"`. -/
def opAppend : Token := ['>', '>']

/-- The string `"&"`. -/
def opBackground : Token := ['&']

/-! ## checkTooManyArgs -/

/-- One call of `strtok(_, " ")` on the text at the saved pointer: skip the
leading delimiters; at the end of the string the result is NULL; otherwise
the token runs to the next delimiter, which is overwritten by NUL, and the
saved pointer moves just past it. Returns the token and the text at the new
saved pointer. -/
def strtok (s : List Char) : Option (Token × List Char) :=
  match s.dropWhile (fun c => c == ' ') with
  | [] => none
  | c :: cs =>
    some ((c :: cs).takeWhile (fun d => d != ' '),
          ((c :: cs).dropWhile (fun d => d != ' ')).drop 1)

/-- The loop `while (token != NULL) { i++; token = strtok(NULL, " "); }`. -/
def countTokensLoop : Nat → Option (Token × List Char) → Nat → Nat
  | 0, _, i => i
  | _ + 1, none, i => i
  | fuel + 1, some (_, saved), i => countTokensLoop fuel (strtok saved) (i + 1)

/-- The value of `i` when the `strtok` loop of `checkTooManyArgs` ends. Each
call of `strtok` consumes at least one character, so `cmd.length + 1`
rounds always reach NULL. -/
def countTokens (cmd : List Char) : Nat :=
  countTokensLoop (cmd.length + 1) (strtok cmd) 0

/-- Return value and `stderr` output of `checkTooManyArgs`. -/
def checkTooManyArgs (cmd : List Char) : Int × List ErrMsg :=
  if countTokens cmd > 16 then (1, [ErrMsg.TooManyArguments]) else (0, [])

/-! ## parseCmd -/

/-- A mutable character buffer; `none` is the NUL byte. -/
abbrev Buf := List (Option Char)

/-- The byte `*p` of a buffer. -/
def deref (buf : Buf) (p : Nat) : Option Char := buf.getD p none

/-- The C string that starts at the head of a buffer. -/
def cstr : Buf → Token
  | some c :: rest => c :: cstr rest
  | _ => []

/-- What `strcpy(dst, start)` copies: the C string at offset `start`. -/
def strcpyFrom (buf : Buf) (start : Nat) : Token := cstr (buf.drop start)

/-- The local state of `parseCmd`. `args` lists the strings stored so far:
the k-th store goes to `args[k]`, so `args_index` is `args.length`. -/
structure ParseState where
  buf : Buf
  start : Nat
  itr : Nat
  arg_length : Nat
  args : List Token
  deriving DecidableEq, Repr

/-- The function `addWordToArgs`: terminate the word at `itr`, copy it from `start` into
the next slot and reset `arg_length`. -/
def addWordToArgs (s : ParseState) : ParseState :=
  let buf := s.buf.set s.itr none
  { s with buf := buf, args := s.args ++ [strcpyFrom buf s.start], arg_length := 0 }

/-- The function `addSpecialChars`: store an operator string in the next slot. -/
def addSpecialChars (s : ParseState) (specialChar : Token) : ParseState :=
  { s with args := s.args ++ [specialChar] }

/-- The guard `if (arg_length > 0) addWordToArgs(...)` shared by the four
delimiter branches. -/
def flushWord (s : ParseState) : ParseState :=
  if s.arg_length > 0 then addWordToArgs s else s

/-- The `while (*itr != '\0')` loop of `parseCmd`. -/
def parseLoop : Nat → ParseState → ParseState
  | 0, s => s
  | fuel + 1, s =>
    match deref s.buf s.itr with
    | none => s
    | some c =>
      if c = '>' then
        let s := flushWord s
        if deref s.buf (s.itr + 1) = some '>' then
          let s := addSpecialChars s opAppend
          parseLoop fuel { s with itr := s.itr + 2, start := s.itr + 2 }
        else
          let s := addSpecialChars s opRedirect
          parseLoop fuel { s with itr := s.itr + 1, start := s.itr + 1 }
      else if c = '|' then
        let s := addSpecialChars (flushWord s) opPipe
        parseLoop fuel { s with itr := s.itr + 1, start := s.itr + 1 }
      else if c = '&' then
        let s := addSpecialChars (flushWord s) opBackground
        parseLoop fuel { s with itr := s.itr + 1, start := s.itr + 1 }
      else if c = ' ' then
        let s := flushWord s
        parseLoop fuel { s with itr := s.itr + 1, start := s.itr + 1 }
      else
        parseLoop fuel { s with itr := s.itr + 1, arg_length := s.arg_length + 1 }

/-- The statements of `parseCmd` after the loop: a word still pending at the
end of the line is copied into the next slot. Returns the strings stored. -/
def parseFinish (s : ParseState) : List Token :=
  if s.arg_length > 0 then s.args ++ [strcpyFrom s.buf s.start] else s.args

/-- The strings `parseCmd` stores, in slot order. Every round of the loop
advances `itr`, so `cmd.length + 1` rounds reach the terminator. -/
def parseCmd (cmd : List Char) : List Token :=
  parseFinish (parseLoop (cmd.length + 1)
    { buf := cmd.map some ++ [none], start := 0, itr := 0, arg_length := 0, args := [] })

/-- The 25-slot array after `parseCmd`: every slot starts NULL and the k-th
string stored lands in slot k. -/
def argsArray (tokens : List Token) : List (Option Token) :=
  (tokens.take ARGS_SLOTS).map some ++ List.replicate (ARGS_SLOTS - tokens.length) none

/-- Result of `getArgs`: the returned pointer (`none` is NULL) and the
`stderr` output. -/
def getArgs (cmd : List Char) : Option (List (Option Token)) × List ErrMsg :=
  let chk := checkTooManyArgs cmd
  if chk.1 ≠ 0 then (none, chk.2)
  else
    let args := argsArray (parseCmd cmd)
    if args.getD 0 none = none then (none, chk.2) else (some args, chk.2)

/-- The array `args` that holds `tokens` followed by NULL slots; for at most
24 tokens this is the 25-slot array `getArgs` returns. -/
def argsOf (tokens : List Token) : List (Option Token) :=
  tokens.map some ++ List.replicate (ARGS_SLOTS - tokens.length) none

/-! ## The pipeline descriptor -/

/-- The record `struct Job`: the positions of the special characters. -/
structure Job where
  pipes : List Int
  append : Int
  redirect : Int
  background : Int
  numCommands : Int
  deriving DecidableEq, Repr

/-- The function `InitializeJob`: every position is -1 and `numCommands` is 1. -/
def InitializeJob : Job :=
  { pipes := List.replicate MAX_PIPES (-1), append := -1, redirect := -1,
    background := -1, numCommands := 1 }

/-- The read `job->pipes[k]`; outside the three slots the embedding reads -1. -/
def pipesAt (job : Job) (k : Int) : Int :=
  if 0 ≤ k then job.pipes.getD k.toNat (-1) else -1

/-- The read `args[i]`; outside the array the embedding reads NULL. -/
def argAt (args : List (Option Token)) (i : Int) : Option Token :=
  if 0 ≤ i then args.getD i.toNat none else none

/-- The `while (args[i] != NULL)` loop of `findAllSpecialCharLocations`, on
the slots from `args + i` on. The store `job->pipes[pipeIndex++] = i` has
no bound in the source: from the fourth pipe token on it goes outside the
three slots of `pipes`, which is undefined in C (the value lands in the
fields that follow the array). The embedding drops such a store, so what is
proved of descriptors built by this loop speaks of the source only for
token sequences with at most three pipe tokens; `pipeStoreIndices` lists
the indices of the stores. -/
def findLoop : List (Option Token) → Nat → Nat → Job → Job
  | some t :: rest, i, pipeIndex, job =>
    if t = opAppend then
      findLoop rest (i + 1) pipeIndex { job with append := i }
    else if t = opRedirect then
      findLoop rest (i + 1) pipeIndex { job with redirect := i }
    else if t = opBackground then
      findLoop rest (i + 1) pipeIndex { job with background := i }
    else if t = opPipe then
      findLoop rest (i + 1) (pipeIndex + 1) { job with pipes := job.pipes.set pipeIndex i }
    else
      findLoop rest (i + 1) pipeIndex job
  | _, _, _, job => job

/-- The function `findAllSpecialCharLocations`: one scan of the array from
slot 0, with the next pipe going to `pipes[0]`. -/
def findAllSpecialCharLocations (args : List (Option Token)) (job : Job) : Job :=
  findLoop args 0 0 job

/-- The descriptor `main` builds for a line: `InitializeJob` followed by
`findAllSpecialCharLocations`. -/
def buildJob (args : List (Option Token)) : Job :=
  findAllSpecialCharLocations args InitializeJob

/-! ## The syntax validator -/

/-- Flags of `open(2)` used by the shell. -/
inductive OFlag where
  | O_WRONLY
  | O_CREAT
  | O_TRUNC
  | O_APPEND
  deriving DecidableEq, Repr

/-- One call `open(path, flags, 0666)`; `path` is the slot of `args` passed. -/
structure OpenCall where
  path : Option Token
  flags : List OFlag
  deriving DecidableEq, Repr

/-- What a check returns, prints on `stderr`, and which files it opens. -/
structure CheckResult where
  ret : Int
  err : List ErrMsg
  opens : List OpenCall
  deriving DecidableEq, Repr

/-- A check that returns `SUCCESS` silently. -/
def CheckResult.ok : CheckResult := ⟨SUCCESS, [], []⟩

/-- A check that prints one diagnostic and returns `FAILURE`. -/
def CheckResult.fail (e : ErrMsg) : CheckResult := ⟨FAILURE, [e], []⟩

/-- The function `checkAtIndexZero`: a recorded position equal to 0 is the
missing-command error. -/
def checkAtIndexZero (job : Job) : CheckResult :=
  if pipesAt job 0 = 0 ∨ job.append = 0 ∨ job.redirect = 0 ∨ job.background = 0 then
    CheckResult.fail ErrMsg.MissingCommand
  else CheckResult.ok

/-- The loop of `checkBetweenPipes`, from `pipeLocation` on. -/
def checkBetweenPipesLoop (job : Job) : Nat → Nat → CheckResult
  | 0, _ => CheckResult.ok
  | fuel + 1, pipeLocation =>
    if pipesAt job pipeLocation ≠ -1 ∧ pipeLocation < 3 then
      let index := pipesAt job pipeLocation
      if index - 1 = job.append ∨ index - 1 = job.redirect then
        CheckResult.fail ErrMsg.NoOutputFile
      else if job.background ≠ -1 ∧ job.background < index then
        CheckResult.fail ErrMsg.MisplacedBackground
      else if (job.append ≠ -1 ∧ job.append < index) ∨
          (job.redirect ≠ -1 ∧ job.redirect < index) then
        CheckResult.fail ErrMsg.MisplacedRedirection
      else if index + 1 = job.append ∨ index + 1 = job.redirect ∨
          index + 1 = job.background then
        CheckResult.fail ErrMsg.MissingCommand
      else checkBetweenPipesLoop job fuel (pipeLocation + 1)
    else CheckResult.ok

/-- The function `checkBetweenPipes`. The guard `pipeLocation < 3` ends the loop after
at most three rounds, so four rounds of fuel are never used up. -/
def checkBetweenPipes (job : Job) : CheckResult :=
  checkBetweenPipesLoop job 4 0

/-- The loop `while (args[lastCommand] != NULL) lastCommand++`. -/
def countArgs : List (Option Token) → Int
  | some _ :: rest => countArgs rest + 1
  | _ => 0

/-- The function `checkLastIndex`: the three checks against the index of
the last non-NULL slot. -/
def checkLastIndex (args : List (Option Token)) (job : Job) : CheckResult :=
  let lastCommand := countArgs args - 1
  if job.background ≠ -1 ∧ job.background ≠ lastCommand then
    CheckResult.fail ErrMsg.MisplacedBackground
  else if pipesAt job (job.numCommands - 1) = lastCommand then
    CheckResult.fail ErrMsg.MissingCommand
  else if job.redirect = lastCommand ∨ job.append = lastCommand then
    CheckResult.fail ErrMsg.NoOutputFile
  else CheckResult.ok

/-- The function `openableFile`; `openOK call` tells whether `open` returns a descriptor
(`true`) or -1 (`false`). -/
def openableFile (openOK : OpenCall → Bool) (args : List (Option Token)) (job : Job) :
    CheckResult :=
  if job.redirect ≠ -1 then
    let call : OpenCall := ⟨argAt args (job.redirect + 1), [OFlag.O_WRONLY, OFlag.O_CREAT]⟩
    if openOK call = false then ⟨FAILURE, [ErrMsg.CannotOpenOutputFile], [call]⟩
    else ⟨0, [], [call]⟩
  else if job.append ≠ -1 then
    let call : OpenCall := ⟨argAt args (job.append + 1), [OFlag.O_WRONLY, OFlag.O_CREAT]⟩
    if openOK call = false then ⟨SUCCESS, [ErrMsg.CannotOpenOutputFile], [call]⟩
    else ⟨0, [], [call]⟩
  else ⟨0, [], []⟩

/-- The function `checkParsingError`: the four checks joined by the short-circuit `||`. -/
def checkParsingError (openOK : OpenCall → Bool) (args : List (Option Token)) (job : Job) :
    CheckResult :=
  let r1 := checkAtIndexZero job
  if r1.ret ≠ 0 then ⟨FAILURE, r1.err, r1.opens⟩
  else
    let r2 := checkBetweenPipes job
    if r2.ret ≠ 0 then ⟨FAILURE, r1.err ++ r2.err, r1.opens ++ r2.opens⟩
    else
      let r3 := checkLastIndex args job
      if r3.ret ≠ 0 then
        ⟨FAILURE, r1.err ++ r2.err ++ r3.err, r1.opens ++ r2.opens ++ r3.opens⟩
      else
        let r4 := openableFile openOK args job
        ⟨if r4.ret ≠ 0 then FAILURE else SUCCESS,
          r1.err ++ r2.err ++ r3.err ++ r4.err,
          r1.opens ++ r2.opens ++ r3.opens ++ r4.opens⟩

/-! ## Execution -/

/-- The store `args[i] = NULL`. -/
def setNull (args : List (Option Token)) (i : Int) : List (Option Token) :=
  if 0 ≤ i then args.set i.toNat none else args

/-- The `for (int i = 0; i < 3; i++)` loop of `freeAllSpecialChars`; the
first argument counts the rounds left. -/
def freePipesLoop : Nat → Nat → List (Option Token) × Job → List (Option Token) × Job
  | 0, _, st => st
  | fuel + 1, i, (args, job) =>
    if pipesAt job i = -1 then (args, job)
    else
      freePipesLoop fuel (i + 1)
        (setNull args (pipesAt job i), { job with numCommands := job.numCommands + 1 })

/-- The function `freeAllSpecialChars`: the array and the descriptor afterwards. -/
def freeAllSpecialChars (args : List (Option Token)) (job : Job) :
    List (Option Token) × Job :=
  let (args, job) := freePipesLoop 3 0 (args, job)
  let args := if job.redirect ≠ -1 then setNull args job.redirect else args
  let args := if job.append ≠ -1 then setNull args job.append else args
  let args := if job.background ≠ -1 then setNull args job.background else args
  (args, job)

/-- The function `checkOutputRedirect`: the file it opens and duplicates onto standard
output, if any. -/
def checkOutputRedirect (args : List (Option Token)) (job : Job) : Option OpenCall :=
  if job.redirect ≠ -1 then
    some ⟨argAt args (job.redirect + 1), [OFlag.O_TRUNC, OFlag.O_WRONLY, OFlag.O_CREAT]⟩
  else if job.append ≠ -1 then
    some ⟨argAt args (job.append + 1), [OFlag.O_WRONLY, OFlag.O_CREAT, OFlag.O_APPEND]⟩
  else none

/-- The NULL-terminated vector at the head of a slot list. -/
def argvOf : List (Option Token) → List Token
  | some t :: rest => t :: argvOf rest
  | _ => []

/-- The vector `&args[i]` handed to `execvp`. -/
def argvAt (args : List (Option Token)) (i : Int) : List Token :=
  if 0 ≤ i then argvOf (args.drop i.toNat) else []

/-- The index at which each stage spawned by `executeCommands` starts:
0, then `pipes[k] + 1` for every further stage. -/
def stageStarts (job : Job) : List Int :=
  [0] ++ (if job.numCommands > 1 then [pipesAt job 0 + 1] else [])
    ++ (if job.numCommands > 2 then [pipesAt job 1 + 1] else [])
    ++ (if job.numCommands > 3 then [pipesAt job 2 + 1] else [])

/-- The calls `execvp(args[i], &args[i])` of the stages, in stage order. -/
def execCalls (args : List (Option Token)) (job : Job) :
    List (Option Token × List Token) :=
  (stageStarts job).map (fun i => (argAt args i, argvAt args i))

/-- A line as `main` runs it once the trailing newline is removed: the
built-ins `exit`, `pwd` and `cd` apart, tokenize, build the descriptor,
validate, free the special characters and list the `execvp` calls. `none`
when the line is a built-in, `getArgs` returns NULL or validation fails. -/
def runLine (openOK : OpenCall → Bool) (cmd : List Char) :
    Option (List (Option Token × List Token)) :=
  if cmd = ['e', 'x', 'i', 't'] ∨ cmd = ['p', 'w', 'd'] then none
  else
    match (getArgs cmd).1 with
    | none => none
    | some args =>
      if argAt args 0 = some ['c', 'd'] then none
      else
        let job := buildJob args
        if (checkParsingError openOK args job).ret ≠ 0 then none
        else
          let (args, job) := freeAllSpecialChars args job
          some (execCalls args job)

/-! ## The stores of findAllSpecialCharLocations into the pipe array -/

/-- The values of `pipeIndex` at the stores `job->pipes[pipeIndex++] = i`
made by the loop of `findAllSpecialCharLocations`, in order, when the scan
starts with the given `pipeIndex`. -/
def pipeStoreIndices : List (Option Token) → Nat → List Nat
  | some t :: rest, pipeIndex =>
    if t = opAppend then pipeStoreIndices rest pipeIndex
    else if t = opRedirect then pipeStoreIndices rest pipeIndex
    else if t = opBackground then pipeStoreIndices rest pipeIndex
    else if t = opPipe then pipeIndex :: pipeStoreIndices rest (pipeIndex + 1)
    else pipeStoreIndices rest pipeIndex
  | _, _ => []

/-! ## Background processes -/

/-- The record `struct BackgroundProcess`. `addr` is the address of the
node, which is what the pointer comparisons of `removeBackground` compare;
the link `next` is the order of the list that holds the nodes. -/
structure BackgroundProcess where
  addr : Nat
  cmd : List Char
  pids : List Int
  status : List Int
  numCommands : Int
  deriving DecidableEq, Repr

/-- The function `newBackground`: a node at the address `malloc` returned,
with a copy of the command text and of the `MAX_COMMANDS` entries of the
two arrays. -/
def newBackground (addr : Nat) (cmd : List Char) (status pids : List Int) (numCommands : Int) :
    BackgroundProcess :=
  { addr := addr, cmd := cmd, pids := pids.take MAX_COMMANDS,
    status := status.take MAX_COMMANDS, numCommands := numCommands }

/-- The function `addNewBackground`: an empty list becomes the new node;
otherwise the loop `while (itr->next)` walks to the last node and links the
new node behind it. -/
def addNewBackground : List BackgroundProcess → BackgroundProcess → List BackgroundProcess
  | [], nextCmd => [nextCmd]
  | [last], nextCmd => [last, nextCmd]
  | itr :: next :: rest, nextCmd => itr :: addNewBackground (next :: rest) nextCmd

/-- The loop `while (itr)` of `removeBackground`, on the nodes from `itr`
on: unlink the node whose address is `removeCmd`. -/
def removeLoop : List BackgroundProcess → Nat → List BackgroundProcess
  | [], _ => []
  | itr :: rest, removeCmd =>
    if itr.addr = removeCmd then rest else itr :: removeLoop rest removeCmd

/-- The function `removeBackground`: the head is replaced by its successor
if it is the node to remove, otherwise the nodes behind it are searched.
The list is never empty when `checkAllBackground` calls it. -/
def removeBackground : List BackgroundProcess → Nat → List BackgroundProcess
  | [], _ => []
  | first :: rest, removeCmd =>
    if first.addr = removeCmd then rest else first :: removeLoop rest removeCmd

/-- The macro `WEXITSTATUS`: bits 8 to 15 of a wait status. -/
def WEXITSTATUS (status : Int) : Int := (status / 256) % 256

/-- What `printMessage` prints: the command text and one exit status per
command. -/
structure Completion where
  cmd : List Char
  codes : List Int
  deriving DecidableEq, Repr

/-- The function `printMessage`. -/
def printMessage (cmd : List Char) (status : List Int) (numCommands : Int) : Completion :=
  { cmd := cmd,
    codes := (List.range numCommands.toNat).map (fun i => WEXITSTATUS (status.getD i 0)) }

/-- What one call `waitpid(pid, &status, options)` does: its return value
and the status it stores, if it stores one. -/
structure WaitResult where
  ret : Int
  stored : Option Int
  deriving DecidableEq, Repr

/-- The first loop of `checkCompletion`, from index `i` on with `n` rounds
left: a command whose pid is not -1 is polled with `WNOHANG`, and its pid is
set to -1 when `waitpid` returns a non-zero value. -/
def pollLoop (wnohang : Int → WaitResult) :
    Nat → Nat → BackgroundProcess → BackgroundProcess
  | 0, _, bp => bp
  | n + 1, i, bp =>
    if bp.pids.getD i (-1) ≠ -1 then
      let r := wnohang (bp.pids.getD i (-1))
      let status := match r.stored with
        | some s => bp.status.set i s
        | none => bp.status
      if r.ret ≠ 0 then
        pollLoop wnohang n (i + 1) { bp with status := status, pids := bp.pids.set i (-1) }
      else pollLoop wnohang n (i + 1) { bp with status := status }
    else pollLoop wnohang n (i + 1) bp

/-- The second loop of `checkCompletion`: `true` when some command from
index `i` on, with `n` rounds left, still has a pid other than -1. -/
def anyRunning : Nat → Nat → BackgroundProcess → Bool
  | 0, _, _ => false
  | n + 1, i, bp => if bp.pids.getD i (-1) ≠ -1 then true else anyRunning n (i + 1) bp

/-- The function `checkCompletion`: the node afterwards, the return value
and what is printed. -/
def checkCompletion (wnohang : Int → WaitResult) (bp : BackgroundProcess) :
    BackgroundProcess × Int × List Completion :=
  let bp := pollLoop wnohang bp.numCommands.toNat 0 bp
  if anyRunning bp.numCommands.toNat 0 bp then (bp, 0, [])
  else (bp, 1, [printMessage bp.cmd bp.status bp.numCommands])

/-- The node at address `a`, as reached through the pointer `itr`. -/
def nodeAt : List BackgroundProcess → Nat → Option BackgroundProcess
  | [], _ => none
  | x :: rest, a => if x.addr = a then some x else nodeAt rest a

/-- The pointer `itr->next` of the node at address `a`; `none` is NULL. -/
def nextOf : List BackgroundProcess → Nat → Option Nat
  | [], _ => none
  | x :: rest, a => if x.addr = a then rest.head?.map (fun y => y.addr) else nextOf rest a

/-- The list after the node at the address of `bp` has been overwritten in
place. -/
def storeNode (head : List BackgroundProcess) (bp : BackgroundProcess) :
    List BackgroundProcess :=
  head.map (fun x => if x.addr = bp.addr then bp else x)

/-- The loop `while (itr)` of `checkAllBackground`: the list and the output
so far, and the list and the output at the end. -/
def checkAllLoop (wnohang : Int → WaitResult) :
    Nat → Option Nat → List BackgroundProcess → List Completion →
      List BackgroundProcess × List Completion
  | 0, _, head, out => (head, out)
  | _ + 1, none, head, out => (head, out)
  | fuel + 1, some itr, head, out =>
    match nodeAt head itr with
    | none => (head, out)
    | some bp =>
      let r := checkCompletion wnohang bp
      let head := storeNode head r.1
      if r.2.1 ≠ 0 then
        checkAllLoop wnohang fuel (nextOf head itr) (removeBackground head itr) (out ++ r.2.2)
      else checkAllLoop wnohang fuel (nextOf head itr) head (out ++ r.2.2)

/-- The function `checkAllBackground`: the list afterwards and the
completion messages printed, in order. Every round moves `itr` one node
on, so `head.length + 1` rounds reach NULL. -/
def checkAllBackground (wnohang : Int → WaitResult) (head : List BackgroundProcess) :
    List BackgroundProcess × List Completion :=
  checkAllLoop wnohang (head.length + 1) (head.head?.map (fun y => y.addr)) head []

/-! ## executeCommands -/

/-- One end of one of the three pipes: `pipe` is 1, 2 or 3 for `pipe1`,
`pipe2`, `pipe3`, and `writeEnd` tells index 1 from index 0. -/
structure PipeEnd where
  pipe : Nat
  writeEnd : Bool
  deriving DecidableEq, Repr

/-- The constant `STDIN_FILENO`. -/
def STDIN_FILENO : Nat := 0

/-- The constant `STDOUT_FILENO`. -/
def STDOUT_FILENO : Nat := 1

/-- The calls a forked child makes, in order. `redirect` stands for the
three calls of `checkOutputRedirect`: `open`, `dup2(fd, STDOUT_FILENO)` and
`close(fd)`. -/
inductive ChildCall where
  | dup2 (fd : PipeEnd) (target : Nat)
  | redirect (call : OpenCall)
  | close (fd : PipeEnd)
  | execvp (file : Option Token) (argv : List Token)
  deriving DecidableEq, Repr

/-- The function `closePipes`. -/
def closePipes : List ChildCall :=
  [ChildCall.close ⟨1, false⟩, ChildCall.close ⟨1, true⟩, ChildCall.close ⟨2, false⟩,
   ChildCall.close ⟨2, true⟩, ChildCall.close ⟨3, false⟩, ChildCall.close ⟨3, true⟩]

/-- The call `checkOutputRedirect(args, job)` inside a child. -/
def outputRedirectCalls (args : List (Option Token)) (job : Job) : List ChildCall :=
  match checkOutputRedirect args job with
  | some call => [ChildCall.redirect call]
  | none => []

/-- The block `if (pids[0] == 0) { ... }`: what the first child does. -/
def childBlock0 (args : List (Option Token)) (job : Job) : List ChildCall :=
  (if job.numCommands = 1 then outputRedirectCalls args job
    else [ChildCall.dup2 ⟨1, true⟩ STDOUT_FILENO])
  ++ closePipes ++ [ChildCall.execvp (argAt args 0) (argvAt args 0)]

/-- The block `if (pids[1] == 0) { ... }`: what the second child does. -/
def childBlock1 (args : List (Option Token)) (job : Job) : List ChildCall :=
  [ChildCall.dup2 ⟨1, false⟩ STDIN_FILENO]
  ++ (if job.numCommands = 2 then outputRedirectCalls args job
    else [ChildCall.dup2 ⟨2, true⟩ STDOUT_FILENO])
  ++ closePipes
  ++ [ChildCall.execvp (argAt args (pipesAt job 0 + 1)) (argvAt args (pipesAt job 0 + 1))]

/-- The block `if (pids[2] == 0) { ... }`: what the third child does. -/
def childBlock2 (args : List (Option Token)) (job : Job) : List ChildCall :=
  [ChildCall.dup2 ⟨2, false⟩ STDIN_FILENO]
  ++ (if job.numCommands = 3 then outputRedirectCalls args job
    else [ChildCall.dup2 ⟨3, true⟩ STDOUT_FILENO])
  ++ closePipes
  ++ [ChildCall.execvp (argAt args (pipesAt job 1 + 1)) (argvAt args (pipesAt job 1 + 1))]

/-- The block `if (pids[3] == 0) { ... }`: what the fourth child does. -/
def childBlock3 (args : List (Option Token)) (job : Job) : List ChildCall :=
  [ChildCall.dup2 ⟨3, false⟩ STDIN_FILENO]
  ++ outputRedirectCalls args job
  ++ closePipes
  ++ [ChildCall.execvp (argAt args (pipesAt job 2 + 1)) (argvAt args (pipesAt job 2 + 1))]

/-- A child created by `fork`: the slot of `pids` that receives its process
id, the process id `fork` returns to the parent, and the calls the child
makes. -/
structure Child where
  slot : Nat
  pid : Int
  calls : List ChildCall
  deriving DecidableEq, Repr

/-- The loop of `getStatus`, from index `i` on with `n` rounds left:
`waitpid(pids[i], &status[i], 0)`. Returns the status array and the process
ids waited for, in order. -/
def getStatusLoop (waitpid : Int → WaitResult) (pids : List Int) :
    Nat → Nat → List Int → List Int × List Int
  | 0, _, status => (status, [])
  | n + 1, i, status =>
    let status := match (waitpid (pids.getD i (-1))).stored with
      | some s => status.set i s
      | none => status
    let r := getStatusLoop waitpid pids n (i + 1) status
    (r.1, pids.getD i (-1) :: r.2)

/-- The function `getStatus`. -/
def getStatus (waitpid : Int → WaitResult) (pids status : List Int) (numCommands : Int) :
    List Int × List Int :=
  getStatusLoop waitpid pids numCommands.toNat 0 status

/-- What a call of `executeCommands` does, seen from the shell process. -/
structure Execution where
  children : List Child
  closed : List ChildCall
  waited : List Int
  result : Option (List Int)
  head : List BackgroundProcess
  deriving DecidableEq, Repr

/-- The children `executeCommands` forks, in order; `fork k` is the value
the call `pids[k] = fork()` returns in the shell process. -/
def spawnAll (fork : Nat → Int) (args : List (Option Token)) (job : Job) : List Child :=
  [⟨0, fork 0, childBlock0 args job⟩]
  ++ (if job.numCommands > 1 then [⟨1, fork 1, childBlock1 args job⟩] else [])
  ++ (if job.numCommands > 2 then [⟨2, fork 2, childBlock2 args job⟩] else [])
  ++ (if job.numCommands > 3 then [⟨3, fork 3, childBlock3 args job⟩] else [])

/-- An array of `MAX_COMMANDS` integers that nobody has written yet: slot
`i` holds the indeterminate value `junk i`. -/
def freshArray (junk : Nat → Int) : List Int := (List.range MAX_COMMANDS).map junk

/-- The array `pids` after the forks: the slots of the children hold their
process ids, the other slots keep their indeterminate contents. -/
def pidsAfter (pids0 : List Int) (children : List Child) : List Int :=
  children.foldl (fun pids c => pids.set c.slot c.pid) pids0

/-- The function `executeCommands`, in the shell process. `fork` and
`waitpid` are the answers of the system, `pidsJunk` and `statusJunk` the
indeterminate initial contents of the local array `pids` and of the array
`malloc` returns for `status`, and `addr` the address `malloc` returns for
a new background node. -/
def executeCommands (fork : Nat → Int) (waitpid : Int → WaitResult)
    (pidsJunk statusJunk : Nat → Int) (addr : Nat)
    (cmd : List Char) (args : List (Option Token)) (job : Job)
    (head : List BackgroundProcess) : Execution :=
  let children := spawnAll fork args job
  let pids := pidsAfter (freshArray pidsJunk) children
  if job.background = -1 then
    let r := getStatus waitpid pids (freshArray statusJunk) job.numCommands
    { children := children, closed := closePipes, waited := r.2, result := some r.1,
      head := head }
  else
    { children := children, closed := closePipes, waited := [], result := none,
      head := addNewBackground head
        (newBackground addr cmd (freshArray statusJunk) pids job.numCommands) }

/-! ## Reference definitions used to state the properties -/

/-- Index of the last occurrence of `t` in `tokens`, or -1 if there is none. -/
def lastIndexOf (t : Token) (tokens : List Token) : Int :=
  match (tokens.indexesOf t).getLast? with
  | some i => (i : Int)
  | none => -1

/-- Number of maximal runs of non-space characters in a text: the number of
characters that are not a space and whose predecessor is a space or does
not exist. The flag tells whether the previous character was a space (or
the text starts here). -/
def fieldRuns : Bool → List Char → Nat
  | _, [] => 0
  | prevSpace, c :: cs =>
    (if c ≠ ' ' ∧ prevSpace = true then 1 else 0) + fieldRuns (c == ' ') cs

/-- Number of space-delimited fields of a line. -/
def numFields (cmd : List Char) : Nat := fieldRuns true cmd

/-- The word pending between `start` and `itr`, as stored when a delimiter
or the end of the line is reached: nothing if it is empty. -/
def flushed (w : List Char) : List Token := if w = [] then [] else [w]

/-- The tokenizer as a function on the text: `w` is the word read so far and
the second argument the text still to be read. -/
def tokensFrom : List Char → List Char → List Token
  | w, [] => flushed w
  | w, [c] =>
    if c = '>' then flushed w ++ [opRedirect]
    else if c = '|' then flushed w ++ [opPipe]
    else if c = '&' then flushed w ++ [opBackground]
    else if c = ' ' then flushed w
    else flushed (w ++ [c])
  | w, c :: d :: r =>
    if c = '>' then
      if d = '>' then flushed w ++ opAppend :: tokensFrom [] r
      else flushed w ++ opRedirect :: tokensFrom [] (d :: r)
    else if c = '|' then flushed w ++ opPipe :: tokensFrom [] (d :: r)
    else if c = '&' then flushed w ++ opBackground :: tokensFrom [] (d :: r)
    else if c = ' ' then flushed w ++ tokensFrom [] (d :: r)
    else tokensFrom (w ++ [c]) (d :: r)

/-- A token that is one of the operator strings `|`, `&`, `>`, `>>`. -/
def isOperatorToken (t : Token) : Prop :=
  t = opPipe ∨ t = opBackground ∨ t = opRedirect ∨ t = opAppend

/-- A word: a non-empty string without space, `|`, `&` or `>`. -/
def isWordToken (t : Token) : Prop :=
  t ≠ [] ∧ ∀ c ∈ t, c ≠ ' ' ∧ c ≠ '|' ∧ c ≠ '&' ∧ c ≠ '>'

/-- The value a single-valued slot of the descriptor holds after the scan
of `tokens` from index `i`: the index of the latest occurrence of `t`, or
the value `acc` it had before. -/
def lastFrom (t : Token) : List Token → Nat → Int → Int
  | [], _, acc => acc
  | x :: xs, i, acc => lastFrom t xs (i + 1) (if x = t then (i : Int) else acc)

/-- The pipe-position array after the scan of `tokens` from index `i`, when
the next pipe goes to slot `k`. -/
def pipesFrom : List Token → Nat → Nat → List Int → List Int
  | [], _, _, p => p
  | x :: xs, i, k, p =>
    if x = opPipe then pipesFrom xs (i + 1) (k + 1) (p.set k (i : Int))
    else pipesFrom xs (i + 1) k p

/-- The rule that fires first at the pipe position `p`, if any, in the order
of the rule list: (1) redirect or append at `p - 1`, (2) background set and
before `p`, (3) redirect or append set and before `p`, (4) redirect, append
or background at `p + 1`. -/
def firstRuleAt (job : Job) (p : Int) : Option ErrMsg :=
  if job.append = p - 1 ∨ job.redirect = p - 1 then some ErrMsg.NoOutputFile
  else if job.background ≠ -1 ∧ job.background < p then some ErrMsg.MisplacedBackground
  else if (job.append ≠ -1 ∧ job.append < p) ∨ (job.redirect ≠ -1 ∧ job.redirect < p) then
    some ErrMsg.MisplacedRedirection
  else if job.append = p + 1 ∨ job.redirect = p + 1 ∨ job.background = p + 1 then
    some ErrMsg.MissingCommand
  else none

/-- The recorded pipe positions of a descriptor: the entries of the three
slots up to the first -1. -/
def recordedPipes (job : Job) : List Int :=
  [pipesAt job 0, pipesAt job 1, pipesAt job 2].takeWhile (fun p => p ≠ -1)

/-- The rule list applied to the recorded pipe positions in order: the
first rule that fires at the first position where one fires. -/
def betweenPipesRules (job : Job) : Option ErrMsg :=
  (recordedPipes job).findSome? (firstRuleAt job)

/-- The pipe written `pipe(j+1)` in the source is the pipe number `j` when
pipes are counted from 0. -/
def pipeNumber (j : Nat) : Nat := j + 1

/-- The index of `args` at which stage `i` starts: 0 for the first stage,
one past the pipe in front of it for the others. -/
def stageStart (job : Job) (i : Nat) : Int :=
  if i = 0 then 0 else pipesAt job ((i : Int) - 1) + 1

/-- The output target of a pipeline as the design states it, by the two
positions of the descriptor: with a redirect position, the slot after it,
created, write-only and truncated; without one but with an append position,
the slot after that, created, write-only and appended to; with neither,
none, and standard output stays as it is. -/
def outputTarget (args : List (Option Token)) (job : Job) : Option OpenCall :=
  match decide (job.redirect = -1), decide (job.append = -1) with
  | false, _ =>
    some ⟨argAt args (job.redirect + 1), [OFlag.O_TRUNC, OFlag.O_WRONLY, OFlag.O_CREAT]⟩
  | true, false =>
    some ⟨argAt args (job.append + 1), [OFlag.O_WRONLY, OFlag.O_CREAT, OFlag.O_APPEND]⟩
  | true, true => none

/-- The stream wiring of stage `i` of `n`: standard input from the read end
of pipe `i - 1` unless `i` is 0; standard output to the write end of pipe
`i` unless the stage is the last, which sends it to the output target of
the pipeline if there is one; then all six pipe ends closed; then the
program of the stage executed. -/
def stageWiring (n i : Nat) (args : List (Option Token)) (job : Job) : List ChildCall :=
  (if i = 0 then [] else [ChildCall.dup2 ⟨pipeNumber (i - 1), false⟩ STDIN_FILENO])
  ++ (if i + 1 = n then
        (match outputTarget args job with
          | some call => [ChildCall.redirect call]
          | none => [])
      else [ChildCall.dup2 ⟨pipeNumber i, true⟩ STDOUT_FILENO])
  ++ [ChildCall.close ⟨pipeNumber 0, false⟩, ChildCall.close ⟨pipeNumber 0, true⟩,
      ChildCall.close ⟨pipeNumber 1, false⟩, ChildCall.close ⟨pipeNumber 1, true⟩,
      ChildCall.close ⟨pipeNumber 2, false⟩, ChildCall.close ⟨pipeNumber 2, true⟩]
  ++ [ChildCall.execvp (argAt args (stageStart job i)) (argvAt args (stageStart job i))]

/-- A job still has a stage without a recorded status after a poll: one of
its commands has a pid other than -1 for which the poll returns 0. -/
def stillRunning (wnohang : Int → WaitResult) (bp : BackgroundProcess) : Bool :=
  (List.range bp.numCommands.toNat).any
    (fun i => decide (bp.pids.getD i (-1) ≠ -1 ∧ (wnohang (bp.pids.getD i (-1))).ret = 0))

/-- The array and the descriptor `main` hands to `executeCommands` for a
token sequence: the descriptor is built and `freeAllSpecialChars` applied. -/
def prepare (tokens : List Token) : List (Option Token) × Job :=
  freeAllSpecialChars (argsOf tokens) (buildJob (argsOf tokens))

/-- The call of `executeCommands` that `main` makes for a token sequence. -/
def executeLine (fork : Nat → Int) (waitpid : Int → WaitResult)
    (pidsJunk statusJunk : Nat → Int) (addr : Nat) (cmd : List Char) (tokens : List Token)
    (head : List BackgroundProcess) : Execution :=
  executeCommands fork waitpid pidsJunk statusJunk addr cmd (prepare tokens).1
    (prepare tokens).2 head

/-- A node as its poll by `checkCompletion` leaves it. -/
def polled (wnohang : Int → WaitResult) (bp : BackgroundProcess) : BackgroundProcess :=
  (checkCompletion wnohang bp).1

/-- The completion report of a job: its command text and the exit statuses
recorded for its commands once it has been polled. -/
def completionOf (wnohang : Int → WaitResult) (bp : BackgroundProcess) : Completion :=
  printMessage bp.cmd (polled wnohang bp).status bp.numCommands

/-! ## Auxiliary lemmas -/

theorem fieldRuns_true_dropWhile (s : List Char) :
    fieldRuns true (s.dropWhile (fun c => c == ' ')) = fieldRuns true s := by
  induction s with
  | nil => rfl
  | cons c r ih =>
    by_cases hc : c = ' '
    · subst hc
      simp [List.dropWhile, fieldRuns, ih]
    · have hb : (c == ' ') = false := by simpa using hc
      rw [List.dropWhile_cons, hb]
      rfl

theorem fieldRuns_false_skip (s : List Char) :
    fieldRuns true ((s.dropWhile (fun d => d != ' ')).drop 1) = fieldRuns false s := by
  induction s with
  | nil => rfl
  | cons c r ih =>
    by_cases hc : c = ' '
    · subst hc
      simp [List.dropWhile, fieldRuns]
    · have hb : (c == ' ') = false := by simpa using hc
      have hn : (c != ' ') = true := by simp [bne, hb]
      rw [List.dropWhile_cons, hn]
      simp only [if_true, ih, fieldRuns, hb]
      simp

theorem strtok_none_fields (s : List Char) (h : strtok s = none) : fieldRuns true s = 0 := by
  unfold strtok at h
  rw [← fieldRuns_true_dropWhile]
  cases hd : s.dropWhile (fun c => c == ' ') with
  | nil => rfl
  | cons c cs => rw [hd] at h; simp at h

theorem strtok_some_fields (s : List Char) (tok saved : List Char)
    (h : strtok s = some (tok, saved)) :
    fieldRuns true s = fieldRuns true saved + 1 ∧ saved.length < s.length := by
  unfold strtok at h
  cases hd : s.dropWhile (fun c => c == ' ') with
  | nil => rw [hd] at h; simp at h
  | cons c cs =>
    rw [hd] at h
    simp only [Option.some.injEq, Prod.mk.injEq] at h
    have hc : c ≠ ' ' := by
      have := List.head_dropWhile_not (fun c => c == ' ') s (by rw [hd]; simp)
      simpa [hd] using this
    have hdrop : (c :: cs).dropWhile (fun d => d != ' ') = cs.dropWhile (fun d => d != ' ') := by
      have hn : (c != ' ') = true := by simp [bne, hc]
      rw [List.dropWhile_cons, hn]
      rfl
    have hb : (c == ' ') = false := by simpa using hc
    constructor
    · rw [← fieldRuns_true_dropWhile s, hd, ← h.2, hdrop, fieldRuns_false_skip]
      simp [fieldRuns, hc, hb]
      omega
    · rw [← h.2, hdrop]
      have h1 : (cs.dropWhile (fun d => d != ' ')).length ≤ cs.length :=
        (List.dropWhile_sublist _).length_le
      have h2 : (c :: cs).length ≤ s.length := by
        rw [← hd]; exact (List.dropWhile_sublist _).length_le
      simp only [List.length_drop, List.length_cons] at *
      omega

theorem countTokensLoop_eq (fuel : Nat) : ∀ (s : List Char) (i : Nat), s.length < fuel →
    countTokensLoop fuel (strtok s) i = i + fieldRuns true s := by
  induction fuel with
  | zero => intro s i h; omega
  | succ n ih =>
    intro s i h
    cases hs : strtok s with
    | none => simp [countTokensLoop, strtok_none_fields s hs]
    | some p =>
      obtain ⟨tok, saved⟩ := p
      obtain ⟨h1, h2⟩ := strtok_some_fields s tok saved hs
      simp only [countTokensLoop]
      rw [ih saved (i + 1) (by omega), h1]
      omega

theorem countTokens_eq_numFields (cmd : List Char) : countTokens cmd = numFields cmd := by
  unfold countTokens numFields
  rw [countTokensLoop_eq _ cmd 0 (by omega)]
  omega

theorem cstr_map_some (w : List Char) (tail : Buf) :
    cstr (w.map some ++ none :: tail) = w := by
  induction w with
  | nil => rfl
  | cons c r ih => simp [cstr, ih]

theorem deref_at (pre : Buf) (x : Option Char) (tail : Buf) :
    deref (pre ++ x :: tail) pre.length = x := by
  unfold deref
  rw [List.getD_eq_getElem?_getD, List.getElem?_append_right (Nat.le_refl _)]
  simp

theorem deref_at_succ (pre : Buf) (x y : Option Char) (tail : Buf) :
    deref (pre ++ x :: y :: tail) (pre.length + 1) = y := by
  have := deref_at (pre ++ [x]) y tail
  simpa using this

theorem set_at (pre : Buf) (x y : Option Char) (tail : Buf) :
    (pre ++ x :: tail).set pre.length y = pre ++ y :: tail := by
  simp

/-- The state after the guard that stores a pending word: the word is
appended to the strings stored, and the delimiter under `itr` may have been
overwritten. -/
theorem flushWord_spec (pre : Buf) (w : List Char) (x : Option Char) (tail : Buf)
    (args : List Token) :
    ∃ y : Option Char,
      flushWord ⟨pre ++ w.map some ++ x :: tail, pre.length, pre.length + w.length,
        w.length, args⟩ =
      ⟨pre ++ w.map some ++ y :: tail, pre.length, pre.length + w.length, 0,
        args ++ flushed w⟩ := by
  cases w with
  | nil => exact ⟨x, by simp [flushWord, flushed]⟩
  | cons c r =>
    refine ⟨none, ?_⟩
    have hset : (pre ++ List.map some (c :: r) ++ x :: tail).set (pre.length + (c :: r).length) none
        = pre ++ List.map some (c :: r) ++ none :: tail := by
      have := set_at (pre ++ List.map some (c :: r)) x none tail
      simp at this
      simp
    have hcpy : strcpyFrom (pre ++ List.map some (c :: r) ++ none :: tail) pre.length = c :: r := by
      unfold strcpyFrom
      rw [List.append_assoc, List.drop_left]
      exact cstr_map_some (c :: r) tail
    simp only [flushWord, addWordToArgs, hset, hcpy, flushed]
    simp

/-- Simulation: from a state whose buffer holds the pending word `w` between
`start` and `itr` and the unread text `rest` after `itr`, the loop and the
final store add exactly `tokensFrom w rest` to the strings stored. -/
theorem parseLoop_tokensFrom (fuel : Nat) :
    ∀ (s : ParseState) (pre : Buf) (w rest : List Char),
      s.buf = pre ++ w.map some ++ (rest.map some ++ [none]) →
      s.start = pre.length → s.itr = pre.length + w.length → s.arg_length = w.length →
      rest.length < fuel →
      parseFinish (parseLoop fuel s) = s.args ++ tokensFrom w rest := by
  induction fuel with
  | zero => intro s pre w rest _ _ _ _ h; omega
  | succ n ih =>
    intro s pre w rest hbuf hstart hitr hlen hfuel
    obtain ⟨buf, start, itr, al, args⟩ := s
    simp only at hbuf hstart hitr hlen
    subst hbuf hstart hitr hlen
    cases rest with
    | nil =>
      have hd : deref (pre ++ w.map some ++ ([].map some ++ [none])) (pre.length + w.length)
          = none := by
        have := deref_at (pre ++ w.map some) none []
        simpa using this
      simp only [parseLoop, hd, parseFinish]
      cases w with
      | nil => simp [tokensFrom, flushed]
      | cons c r =>
        have hcpy : strcpyFrom (pre ++ List.map some (c :: r) ++ (List.map some [] ++ [none]))
            pre.length = c :: r := by
          unfold strcpyFrom
          rw [List.append_assoc, List.drop_left]
          exact cstr_map_some (c :: r) []
        simp only [hcpy]
        simp [tokensFrom, flushed]
    | cons c r =>
      have hd : deref (pre ++ w.map some ++ ((c :: r).map some ++ [none])) (pre.length + w.length)
          = some c := by
        have := deref_at (pre ++ w.map some) (some c) (r.map some ++ [none])
        simpa using this
      obtain ⟨y, hy⟩ := flushWord_spec pre w (some c) (r.map some ++ [none]) args
      have hbuf' : pre ++ w.map some ++ ((c :: r).map some ++ [none]) =
          pre ++ w.map some ++ some c :: (r.map some ++ [none]) := by simp
      rw [hbuf']
      rw [hbuf'] at hd
      have hnext : ∀ op : List Token,
          parseFinish (parseLoop n ⟨pre ++ w.map some ++ y :: (r.map some ++ [none]),
                pre.length + w.length + 1, pre.length + w.length + 1, 0,
                args ++ flushed w ++ op⟩) =
          args ++ flushed w ++ op ++ tokensFrom [] r := by
        intro op
        exact ih _ (pre ++ w.map some ++ [y]) [] r (by simp) (by simp; omega) (by simp; omega)
          (by simp) (by simp at hfuel ⊢; omega)
      have hword : ∀ hc : (c ≠ '>' ∧ c ≠ '|' ∧ c ≠ '&' ∧ c ≠ ' '),
          parseFinish (parseLoop n ⟨pre ++ w.map some ++ some c :: (r.map some ++ [none]),
                pre.length, pre.length + w.length + 1, w.length + 1, args⟩) =
          args ++ tokensFrom (w ++ [c]) r := by
        intro _
        exact ih _ pre (w ++ [c]) r (by simp) (by simp) (by simp; omega) (by simp)
          (by simp at hfuel ⊢; omega)
      rw [parseLoop]
      simp only [hd]
      by_cases h1 : c = '>'
      · subst h1
        simp only [if_true, hy]
        cases r with
        | nil =>
          have hd2 : deref (pre ++ w.map some ++ y :: ([].map some ++ [none]))
              (pre.length + w.length + 1) = none := by
            have := deref_at_succ (pre ++ w.map some) y none []
            simpa using this
          simp only [hd2, addSpecialChars]
          simpa [tokensFrom] using hnext [opRedirect]
        | cons d r' =>
          have hd2 : deref (pre ++ w.map some ++ y :: ((d :: r').map some ++ [none]))
              (pre.length + w.length + 1) = some d := by
            have := deref_at_succ (pre ++ w.map some) y (some d) (r'.map some ++ [none])
            simpa using this
          simp only [hd2, addSpecialChars]
          by_cases h2 : d = '>'
          · subst h2
            simp only [if_true]
            have := ih ⟨pre ++ w.map some ++ y :: ((('>' : Char) :: r').map some ++ [none]),
              pre.length + w.length + 2, pre.length + w.length + 2, 0,
              args ++ flushed w ++ [opAppend]⟩ (pre ++ w.map some ++ [y, some '>']) [] r'
              (by simp) (by simp; omega) (by simp; omega) (by simp)
              (by simp at hfuel ⊢; omega)
            simpa [tokensFrom] using this
          · have h2' : ¬ (some d = some '>') := by simpa using h2
            simp only [h2', if_false]
            simpa [tokensFrom, h2] using hnext [opRedirect]
      · simp only [h1, if_false]
        by_cases h3 : c = '|'
        · subst h3
          simp only [if_true, hy, addSpecialChars]
          cases r with
          | nil => simpa [tokensFrom] using hnext [opPipe]
          | cons d r' => simpa [tokensFrom] using hnext [opPipe]
        · simp only [h3, if_false]
          by_cases h4 : c = '&'
          · subst h4
            simp only [if_true, hy, addSpecialChars]
            cases r with
            | nil => simpa [tokensFrom] using hnext [opBackground]
            | cons d r' => simpa [tokensFrom] using hnext [opBackground]
          · simp only [h4, if_false]
            by_cases h5 : c = ' '
            · subst h5
              simp only [if_true, hy]
              cases r with
              | nil => simpa [tokensFrom, flushed] using hnext []
              | cons d r' => simpa [tokensFrom] using hnext []
            · simp only [h5, if_false]
              cases r with
              | nil => simpa [tokensFrom, h1, h3, h4, h5] using hword ⟨h1, h3, h4, h5⟩
              | cons d r' => simpa [tokensFrom, h1, h3, h4, h5] using hword ⟨h1, h3, h4, h5⟩

/-- The strings stored by `parseCmd` are the tokens of the whole line, read
with no word pending. -/
theorem parseCmd_eq_tokensFrom (cmd : List Char) : parseCmd cmd = tokensFrom [] cmd := by
  unfold parseCmd
  have := parseLoop_tokensFrom (cmd.length + 1)
    ⟨cmd.map some ++ [none], 0, 0, 0, []⟩ [] [] cmd (by simp) (by simp) (by simp) (by simp)
    (by omega)
  simpa using this

theorem flushed_nil : flushed [] = [] := rfl

theorem tokensFrom_nil (w : List Char) : tokensFrom w [] = flushed w := by
  simp [tokensFrom]

theorem tokensFrom_space (w r : List Char) :
    tokensFrom w (' ' :: r) = flushed w ++ tokensFrom [] r := by
  cases r <;> simp [tokensFrom, flushed]

theorem tokensFrom_pipe (w r : List Char) :
    tokensFrom w ('|' :: r) = flushed w ++ opPipe :: tokensFrom [] r := by
  cases r <;> simp [tokensFrom, flushed]

theorem tokensFrom_background (w r : List Char) :
    tokensFrom w ('&' :: r) = flushed w ++ opBackground :: tokensFrom [] r := by
  cases r <;> simp [tokensFrom, flushed]

theorem tokensFrom_append (w r : List Char) :
    tokensFrom w ('>' :: '>' :: r) = flushed w ++ opAppend :: tokensFrom [] r := by
  simp [tokensFrom]

theorem tokensFrom_redirect (w r : List Char) (h : r.head? ≠ some '>') :
    tokensFrom w ('>' :: r) = flushed w ++ opRedirect :: tokensFrom [] r := by
  cases r with
  | nil => simp [tokensFrom, flushed]
  | cons d r' =>
    have hd : d ≠ '>' := by simpa using h
    simp [tokensFrom, hd]

theorem tokensFrom_word (w r : List Char) (c : Char)
    (h : c ≠ '>' ∧ c ≠ '|' ∧ c ≠ '&' ∧ c ≠ ' ') :
    tokensFrom w (c :: r) = tokensFrom (w ++ [c]) r := by
  obtain ⟨h1, h2, h3, h4⟩ := h
  cases r <;> simp [tokensFrom, h1, h2, h3, h4]

/-- Case analysis on the text still to be read, one case per branch of the
loop of `parseCmd`. -/
theorem text_cases (rest : List Char) :
    rest = [] ∨ (∃ r, rest = ' ' :: r) ∨ (∃ r, rest = '|' :: r) ∨ (∃ r, rest = '&' :: r) ∨
    (∃ r, rest = '>' :: '>' :: r) ∨ (∃ r, rest = '>' :: r ∧ r.head? ≠ some '>') ∨
    (∃ c r, rest = c :: r ∧ (c ≠ '>' ∧ c ≠ '|' ∧ c ≠ '&' ∧ c ≠ ' ')) := by
  cases rest with
  | nil => exact Or.inl rfl
  | cons c r =>
    by_cases h1 : c = '>'
    · subst h1
      cases r with
      | nil => exact Or.inr (Or.inr (Or.inr (Or.inr (Or.inr (Or.inl ⟨[], rfl, by simp⟩)))))
      | cons d r' =>
        by_cases h2 : d = '>'
        · subst h2
          exact Or.inr (Or.inr (Or.inr (Or.inr (Or.inl ⟨r', rfl⟩))))
        · exact Or.inr (Or.inr (Or.inr (Or.inr (Or.inr (Or.inl ⟨d :: r', rfl, by simpa using h2⟩)))))
    · by_cases h2 : c = '|'
      · subst h2; exact Or.inr (Or.inr (Or.inl ⟨r, rfl⟩))
      · by_cases h3 : c = '&'
        · subst h3; exact Or.inr (Or.inr (Or.inr (Or.inl ⟨r, rfl⟩)))
        · by_cases h4 : c = ' '
          · subst h4; exact Or.inr (Or.inl ⟨r, rfl⟩)
          · exact Or.inr (Or.inr (Or.inr (Or.inr (Or.inr (Or.inr ⟨c, r, rfl, h1, h2, h3, h4⟩)))))

theorem tokensFrom_wellformed (n : Nat) :
    ∀ (w rest : List Char), rest.length ≤ n →
      (∀ c ∈ w, c ≠ ' ' ∧ c ≠ '|' ∧ c ≠ '&' ∧ c ≠ '>') →
      ∀ t ∈ tokensFrom w rest, isOperatorToken t ∨ isWordToken t := by
  induction n using Nat.strong_induction_on with
  | _ n ih =>
    intro w rest hlen hw t ht
    have hfl : ∀ t ∈ flushed w, isOperatorToken t ∨ isWordToken t := by
      intro t ht
      unfold flushed at ht
      by_cases hwn : w = []
      · simp [hwn] at ht
      · simp [hwn] at ht
        subst ht
        exact Or.inr ⟨hwn, hw⟩
    have hnil : ∀ c ∈ ([] : List Char), c ≠ ' ' ∧ c ≠ '|' ∧ c ≠ '&' ∧ c ≠ '>' := by simp
    rcases text_cases rest with h | ⟨r, h⟩ | ⟨r, h⟩ | ⟨r, h⟩ | ⟨r, h⟩ | ⟨r, h, hr⟩ | ⟨c, r, h, hc⟩
    · subst h
      rw [tokensFrom_nil] at ht
      exact hfl t ht
    · subst h
      rw [tokensFrom_space, List.mem_append] at ht
      rcases ht with ht | ht
      · exact hfl t ht
      · exact ih r.length (by simp at hlen; omega) [] r (Nat.le_refl _) hnil t ht
    · subst h
      rw [tokensFrom_pipe, List.mem_append, List.mem_cons] at ht
      rcases ht with ht | ht | ht
      · exact hfl t ht
      · exact Or.inl (Or.inl ht)
      · exact ih r.length (by simp at hlen; omega) [] r (Nat.le_refl _) hnil t ht
    · subst h
      rw [tokensFrom_background, List.mem_append, List.mem_cons] at ht
      rcases ht with ht | ht | ht
      · exact hfl t ht
      · exact Or.inl (Or.inr (Or.inl ht))
      · exact ih r.length (by simp at hlen; omega) [] r (Nat.le_refl _) hnil t ht
    · subst h
      rw [tokensFrom_append, List.mem_append, List.mem_cons] at ht
      rcases ht with ht | ht | ht
      · exact hfl t ht
      · exact Or.inl (Or.inr (Or.inr (Or.inr ht)))
      · exact ih r.length (by simp at hlen; omega) [] r (Nat.le_refl _) hnil t ht
    · subst h
      rw [tokensFrom_redirect _ _ hr, List.mem_append, List.mem_cons] at ht
      rcases ht with ht | ht | ht
      · exact hfl t ht
      · exact Or.inl (Or.inr (Or.inr (Or.inl ht)))
      · exact ih r.length (by simp at hlen; omega) [] r (Nat.le_refl _) hnil t ht
    · subst h
      rw [tokensFrom_word _ _ _ hc] at ht
      refine ih r.length (by simp at hlen; omega) (w ++ [c]) r (Nat.le_refl _) ?_ t ht
      intro x hx
      rw [List.mem_append, List.mem_singleton] at hx
      rcases hx with hx | hx
      · exact hw x hx
      · subst hx
        exact ⟨hc.2.2.2, hc.2.1, hc.2.2.1, hc.1⟩

theorem tokensFrom_flushed_redirect (w r : List Char) :
    tokensFrom w ('>' :: r) = flushed w ++ tokensFrom [] ('>' :: r) := by
  cases r with
  | nil => simp [tokensFrom, flushed]
  | cons d r' =>
    by_cases hd : d = '>'
    · subst hd; simp [tokensFrom, flushed]
    · simp [tokensFrom, flushed, hd]

/-- Text that does not end in `>` can be tokenized separately from a
following text that starts with `>`. -/
theorem tokensFrom_split_redirect (n : Nat) :
    ∀ (w pre rest : List Char), pre.length ≤ n → pre.getLast? ≠ some '>' →
      tokensFrom w (pre ++ '>' :: rest) = tokensFrom w pre ++ tokensFrom [] ('>' :: rest) := by
  induction n using Nat.strong_induction_on with
  | _ n ih =>
    intro w pre rest hlen hlast
    have hstep : ∀ (w' r : List Char), r.length < pre.length → r.getLast? ≠ some '>' →
        tokensFrom w' (r ++ '>' :: rest) = tokensFrom w' r ++ tokensFrom [] ('>' :: rest) := by
      intro w' r hr hl
      exact ih r.length (by omega) w' r rest (Nat.le_refl _) hl
    have htail : ∀ (c : Char) (r : List Char), pre = c :: r → c ≠ '>' → r.getLast? ≠ some '>' := by
      intro c r hp hc
      subst hp
      cases r with
      | nil => simp
      | cons d r' => simpa [List.getLast?_cons_cons] using hlast
    rcases text_cases pre with h | ⟨r, h⟩ | ⟨r, h⟩ | ⟨r, h⟩ | ⟨r, h⟩ | ⟨r, h, hr⟩ | ⟨c, r, h, hc⟩
    · subst h
      rw [List.nil_append, tokensFrom_nil, tokensFrom_flushed_redirect]
    · have ht := htail _ _ h (by decide)
      subst h
      rw [List.cons_append, tokensFrom_space, tokensFrom_space, hstep [] r (by simp) ht,
        List.append_assoc]
    · have ht := htail _ _ h (by decide)
      subst h
      rw [List.cons_append, tokensFrom_pipe, tokensFrom_pipe, hstep [] r (by simp) ht]
      simp
    · have ht := htail _ _ h (by decide)
      subst h
      rw [List.cons_append, tokensFrom_background, tokensFrom_background,
        hstep [] r (by simp) ht]
      simp
    · subst h
      have ht : r.getLast? ≠ some '>' := by
        cases r with
        | nil => simp at hlast
        | cons d r' => simpa [List.getLast?_cons_cons] using hlast
      rw [List.cons_append, List.cons_append, tokensFrom_append, tokensFrom_append,
        hstep [] r (by simp; omega) ht]
      simp
    · subst h
      have hne : r ≠ [] := by
        intro hnil
        subst hnil
        simp at hlast
      have ht : r.getLast? ≠ some '>' := by
        cases r with
        | nil => exact absurd rfl hne
        | cons d r' => simpa [List.getLast?_cons_cons] using hlast
      have hr' : (r ++ '>' :: rest).head? ≠ some '>' := by
        cases r with
        | nil => exact absurd rfl hne
        | cons d r' => simpa using hr
      rw [List.cons_append, tokensFrom_redirect _ _ hr', tokensFrom_redirect _ _ hr,
        hstep [] r (by simp) ht]
      simp
    · have ht := htail _ _ h hc.1
      subst h
      rw [List.cons_append, tokensFrom_word _ _ _ hc, tokensFrom_word _ _ _ hc,
        hstep (w ++ [c]) r (by simp) ht]

/-- A run of `>` followed by text that does not start with `>` is read as
pairs `>>` and, if its length is odd, one final `>`. -/
theorem tokensFrom_redirect_run (n : Nat) :
    ∀ (post : List Char), post.head? ≠ some '>' →
      tokensFrom [] (List.replicate n '>' ++ post) =
        List.replicate (n / 2) opAppend ++ List.replicate (n % 2) opRedirect ++
          tokensFrom [] post := by
  induction n using Nat.strong_induction_on with
  | _ n ih =>
    intro post hpost
    match n with
    | 0 => simp
    | 1 =>
      simp only [List.replicate_one, List.singleton_append]
      rw [tokensFrom_redirect _ _ hpost]
      simp [flushed]
    | k + 2 =>
      have h2 : (k + 2) / 2 = k / 2 + 1 := by omega
      have h3 : (k + 2) % 2 = k % 2 := by omega
      rw [h2, h3, List.replicate_succ, List.replicate_succ, List.cons_append, List.cons_append,
        tokensFrom_append, ih k (by omega) post hpost]
      simp [flushed, List.replicate_succ]

theorem flushed_eq_nil (w : List Char) : flushed w = [] ↔ w = [] := by
  unfold flushed
  by_cases h : w = [] <;> simp [h]

theorem tokensFrom_eq_nil (n : Nat) :
    ∀ (w rest : List Char), rest.length ≤ n →
      (tokensFrom w rest = [] ↔ w = [] ∧ ∀ c ∈ rest, c = ' ') := by
  induction n using Nat.strong_induction_on with
  | _ n ih =>
    intro w rest hlen
    rcases text_cases rest with h | ⟨r, h⟩ | ⟨r, h⟩ | ⟨r, h⟩ | ⟨r, h⟩ | ⟨r, h, hr⟩ | ⟨c, r, h, hc⟩
    · subst h
      simp [tokensFrom_nil, flushed_eq_nil]
    · subst h
      rw [tokensFrom_space, List.append_eq_nil, flushed_eq_nil,
        ih r.length (by simp at hlen; omega) [] r (Nat.le_refl _)]
      simp
    · subst h
      rw [tokensFrom_pipe]
      simp
    · subst h
      rw [tokensFrom_background]
      simp
    · subst h
      rw [tokensFrom_append]
      simp
    · subst h
      rw [tokensFrom_redirect _ _ hr]
      simp
    · subst h
      rw [tokensFrom_word _ _ _ hc, ih r.length (by simp at hlen; omega) (w ++ [c]) r (Nat.le_refl _)]
      simp [hc.2.2.2]

theorem parseCmd_eq_nil_iff (cmd : List Char) : parseCmd cmd = [] ↔ ∀ c ∈ cmd, c = ' ' := by
  rw [parseCmd_eq_tokensFrom, tokensFrom_eq_nil cmd.length [] cmd (Nat.le_refl _)]
  simp

theorem findLoop_nulls (m i k : Nat) (job : Job) :
    findLoop (List.replicate m none) i k job = job := by
  cases m <;> simp [List.replicate_succ, findLoop]

theorem findLoop_fields (tokens : List Token) :
    ∀ (m i k : Nat) (job : Job),
      findLoop (tokens.map some ++ List.replicate m none) i k job =
        { pipes := pipesFrom tokens i k job.pipes,
          append := lastFrom opAppend tokens i job.append,
          redirect := lastFrom opRedirect tokens i job.redirect,
          background := lastFrom opBackground tokens i job.background,
          numCommands := job.numCommands } := by
  induction tokens with
  | nil => intro m i k job; simp [findLoop_nulls, pipesFrom, lastFrom]
  | cons t ts ih =>
    intro m i k job
    simp only [List.map_cons, List.cons_append, findLoop]
    by_cases h1 : t = opAppend
    · subst h1
      simp [ih, pipesFrom, lastFrom, opAppend, opRedirect, opBackground, opPipe]
    · by_cases h2 : t = opRedirect
      · subst h2
        simp [ih, pipesFrom, lastFrom, opAppend, opRedirect, opBackground, opPipe]
      · by_cases h3 : t = opBackground
        · subst h3
          simp [ih, pipesFrom, lastFrom, opAppend, opRedirect, opBackground, opPipe]
        · by_cases h4 : t = opPipe
          · subst h4
            simp [ih, pipesFrom, lastFrom, opAppend, opRedirect, opBackground, opPipe]
          · simp [ih, pipesFrom, lastFrom, h1, h2, h3, h4]

theorem getLast?_indexesOf_cons (t x : Token) (xs : List Token) :
    ((x :: xs).indexesOf t).getLast? =
      match (xs.indexesOf t).getLast? with
      | some j => some (j + 1)
      | none => if x = t then some 0 else none := by
  rw [List.indexesOf_cons]
  by_cases h : x = t
  · subst h
    simp only [beq_self_eq_true, cond_true, List.getLast?_cons, List.getLast?_map, if_true]
    cases (xs.indexesOf x).getLast? <;> rfl
  · have hb : (x == t) = false := by simpa using h
    simp only [hb, cond_false, List.getLast?_map, h, if_false]
    cases (xs.indexesOf t).getLast? <;> rfl

theorem lastFrom_eq (t : Token) (tokens : List Token) :
    ∀ (i : Nat) (acc : Int),
      lastFrom t tokens i acc =
        match (tokens.indexesOf t).getLast? with
        | some j => ((i + j : Nat) : Int)
        | none => acc := by
  induction tokens with
  | nil => intro i acc; simp [lastFrom]
  | cons x xs ih =>
    intro i acc
    rw [lastFrom, ih, getLast?_indexesOf_cons]
    cases (xs.indexesOf t).getLast? with
    | none =>
      by_cases h : x = t <;> simp [h]
    | some j =>
      simp only
      congr 1
      omega

theorem lastFrom_init (t : Token) (tokens : List Token) :
    lastFrom t tokens 0 (-1) = lastIndexOf t tokens := by
  rw [lastFrom_eq, lastIndexOf]
  cases (tokens.indexesOf t).getLast? <;> simp

theorem indexesOf_pairwise (t : Token) (tokens : List Token) :
    List.Pairwise (fun a b => a < b) (tokens.indexesOf t) := by
  induction tokens with
  | nil => simp
  | cons x xs ih =>
    rw [List.indexesOf_cons]
    have hmap : List.Pairwise (fun a b => a < b) ((xs.indexesOf t).map (fun j => j + 1)) := by
      rw [List.pairwise_map]
      exact ih.imp (by intro a b h; omega)
    cases (x == t) with
    | false => simpa using hmap
    | true =>
      simp only [cond_true, List.pairwise_cons]
      refine ⟨?_, hmap⟩
      intro a ha
      rw [List.mem_map] at ha
      obtain ⟨j, _, rfl⟩ := ha
      omega

theorem mem_indexesOf_iff (t : Token) (tokens : List Token) :
    ∀ i : Nat, i ∈ tokens.indexesOf t ↔ tokens.get? i = some t := by
  induction tokens with
  | nil => intro i; simp
  | cons x xs ih =>
    intro i
    rw [List.indexesOf_cons]
    cases i with
    | zero =>
      by_cases h : x = t
      · subst h; simp
      · have hb : (x == t) = false := by simpa using h
        simp [hb, h]
    | succ j =>
      have hmem : j + 1 ∈ (xs.indexesOf t).map (fun k => k + 1) ↔ xs.get? j = some t := by
        rw [← ih j, List.mem_map]
        constructor
        · rintro ⟨k, hk, hkj⟩
          have : k = j := by omega
          subst this
          exact hk
        · intro hj
          exact ⟨j, hj, rfl⟩
      cases (x == t) with
      | false => simpa using hmem
      | true => simpa using hmem

theorem pipesFrom_eq (tokens : List Token) :
    ∀ (i k : Nat) (p : List Int), k + (tokens.indexesOf opPipe).length ≤ p.length →
      pipesFrom tokens i k p =
        p.take k ++ (tokens.indexesOf opPipe).map (fun j => ((i + j : Nat) : Int)) ++
          p.drop (k + (tokens.indexesOf opPipe).length) := by
  induction tokens with
  | nil => intro i k p _; simp [pipesFrom]
  | cons x xs ih =>
    intro i k p hlen
    rw [List.indexesOf_cons] at hlen ⊢
    by_cases h : x = opPipe
    · subst h
      simp only [beq_self_eq_true, cond_true, List.length_cons, List.length_map] at hlen ⊢
      rw [pipesFrom, if_pos rfl, ih (i + 1) (k + 1) _ (by simp; omega)]
      have hk : k < p.length := by omega
      have h1 : (p.set k (i : Int)).take (k + 1) = p.take k ++ [(i : Int)] := by
        rw [List.set_eq_take_append_cons_drop, if_pos hk, List.take_append_eq_append_take]
        simp [List.length_take, Nat.min_eq_left (Nat.le_of_lt hk), List.take_take]
      have h2 : (p.set k (i : Int)).drop (k + 1 + (xs.indexesOf opPipe).length) =
          p.drop (k + 1 + (xs.indexesOf opPipe).length) :=
        List.drop_set_of_lt _ _ (by omega)
      rw [h1, h2]
      simp only [List.map_cons, List.map_map, List.append_assoc, List.singleton_append,
        Nat.add_zero]
      have h3 : k + ((xs.indexesOf opPipe).length + 1) = k + 1 + (xs.indexesOf opPipe).length := by
        omega
      rw [h3]
      congr 3
      apply List.map_congr_left
      intro j _
      simp only [Function.comp]
      congr 1
      omega
    · have hb : (x == opPipe) = false := by simpa using h
      simp only [hb, cond_false, List.length_map] at hlen ⊢
      rw [pipesFrom, if_neg h, ih (i + 1) k p hlen]
      simp only [List.map_map]
      congr 2
      apply List.map_congr_left
      intro j _
      simp only [Function.comp]
      congr 1
      omega

theorem buildJob_eq (tokens : List Token) :
    buildJob (argsOf tokens) =
      { pipes := pipesFrom tokens 0 0 (List.replicate MAX_PIPES (-1)),
        append := lastIndexOf opAppend tokens,
        redirect := lastIndexOf opRedirect tokens,
        background := lastIndexOf opBackground tokens,
        numCommands := 1 } := by
  unfold buildJob findAllSpecialCharLocations argsOf
  rw [findLoop_fields]
  simp [InitializeJob, lastFrom_init]

theorem freePipesLoop_job (fuel : Nat) :
    ∀ (i : Nat) (args : List (Option Token)) (job : Job),
      (freePipesLoop fuel i (args, job)).2.pipes = job.pipes ∧
      (freePipesLoop fuel i (args, job)).2.append = job.append ∧
      (freePipesLoop fuel i (args, job)).2.redirect = job.redirect ∧
      (freePipesLoop fuel i (args, job)).2.background = job.background := by
  induction fuel with
  | zero => intro i args job; simp [freePipesLoop]
  | succ n ih =>
    intro i args job
    rw [freePipesLoop]
    by_cases h : pipesAt job i = -1
    · simp [h]
    · simp only [h, if_false]
      exact ih _ _ _

theorem freeAllSpecialChars_job (args : List (Option Token)) (job : Job) :
    (freeAllSpecialChars args job).2.pipes = job.pipes ∧
    (freeAllSpecialChars args job).2.append = job.append ∧
    (freeAllSpecialChars args job).2.redirect = job.redirect ∧
    (freeAllSpecialChars args job).2.background = job.background := by
  unfold freeAllSpecialChars
  exact freePipesLoop_job 3 0 args job

theorem pipeStoreIndices_nulls (m k : Nat) :
    pipeStoreIndices (List.replicate m none) k = [] := by
  cases m <;> simp [List.replicate_succ, pipeStoreIndices]

/-- The stores into the pipe array go to consecutive slots, one per pipe
token. -/
theorem pipeStoreIndices_eq (tokens : List Token) :
    ∀ (m k : Nat), pipeStoreIndices (tokens.map some ++ List.replicate m none) k =
      List.range' k (tokens.indexesOf opPipe).length := by
  induction tokens with
  | nil => intro m k; simp [pipeStoreIndices_nulls]
  | cons t ts ih =>
    intro m k
    rw [List.indexesOf_cons]
    simp only [List.map_cons, List.cons_append, pipeStoreIndices]
    by_cases h4 : t = opPipe
    · subst h4
      simp [ih, opPipe, opAppend, opRedirect, opBackground, List.range'_succ]
    · have hb : (t == opPipe) = false := by simpa using h4
      simp only [h4, if_false, hb, cond_false, List.length_map]
      split_ifs <;> exact ih m k

theorem tokensFrom_join (n : Nat) :
    ∀ (w rest : List Char), rest.length ≤ n →
      (tokensFrom w rest).flatten = w ++ rest.filter (fun c => c != ' ') := by
  have hfl : ∀ w : List Char, (flushed w).flatten = w := by
    intro w
    unfold flushed
    by_cases hw : w = [] <;> simp [hw]
  induction n using Nat.strong_induction_on with
  | _ n ih =>
    intro w rest hlen
    rcases text_cases rest with h | ⟨r, h⟩ | ⟨r, h⟩ | ⟨r, h⟩ | ⟨r, h⟩ | ⟨r, h, hr⟩ | ⟨c, r, h, hc⟩
    · subst h
      simp [tokensFrom_nil, hfl]
    · subst h
      rw [tokensFrom_space, List.flatten_append, hfl,
        ih r.length (by simp at hlen; omega) [] r (Nat.le_refl _)]
      simp
    · subst h
      rw [tokensFrom_pipe, List.flatten_append, hfl, List.flatten_cons,
        ih r.length (by simp at hlen; omega) [] r (Nat.le_refl _)]
      simp [opPipe]
    · subst h
      rw [tokensFrom_background, List.flatten_append, hfl, List.flatten_cons,
        ih r.length (by simp at hlen; omega) [] r (Nat.le_refl _)]
      simp [opBackground]
    · subst h
      rw [tokensFrom_append, List.flatten_append, hfl, List.flatten_cons,
        ih r.length (by simp at hlen; omega) [] r (Nat.le_refl _)]
      simp [opAppend]
    · subst h
      rw [tokensFrom_redirect _ _ hr, List.flatten_append, hfl, List.flatten_cons,
        ih r.length (by simp at hlen; omega) [] r (Nat.le_refl _)]
      simp [opRedirect]
    · subst h
      rw [tokensFrom_word _ _ _ hc, ih r.length (by simp at hlen; omega) (w ++ [c]) r (Nat.le_refl _)]
      simp [hc.2.2.2]

theorem addNewBackground_append (head : List BackgroundProcess) (nextCmd : BackgroundProcess) :
    addNewBackground head nextCmd = head ++ [nextCmd] := by
  induction head with
  | nil => rfl
  | cons x rest ih =>
    cases rest with
    | nil => rfl
    | cons y rest' => simp only [addNewBackground, ih, List.cons_append]

theorem freePipesLoop_numCommands (fuel : Nat) :
    ∀ (i : Nat) (args : List (Option Token)) (job : Job),
      job.numCommands ≤ (freePipesLoop fuel i (args, job)).2.numCommands ∧
      (freePipesLoop fuel i (args, job)).2.numCommands ≤ job.numCommands + fuel := by
  induction fuel with
  | zero => intro i args job; simp [freePipesLoop]
  | succ n ih =>
    intro i args job
    rw [freePipesLoop]
    by_cases h : pipesAt job i = -1
    · simp only [h, if_true]
      omega
    · simp only [h, if_false]
      have := ih (i + 1) (setNull args (pipesAt job i))
        { job with numCommands := job.numCommands + 1 }
      simp only at this
      omega

/-- The stage count after `freeAllSpecialChars` is at least the one before
and at most three more: from 1 it ends between 1 and 4. -/
theorem freeAllSpecialChars_numCommands_bounds (args : List (Option Token)) (job : Job) :
    job.numCommands ≤ (freeAllSpecialChars args job).2.numCommands ∧
    (freeAllSpecialChars args job).2.numCommands ≤ job.numCommands + 3 := by
  unfold freeAllSpecialChars
  exact freePipesLoop_numCommands 3 0 args job

theorem checkBetweenPipesLoop_step (job : Job) (fuel k : Nat) :
    checkBetweenPipesLoop job (fuel + 1) k =
      if pipesAt job k ≠ -1 ∧ k < 3 then
        match firstRuleAt job (pipesAt job k) with
        | some e => CheckResult.fail e
        | none => checkBetweenPipesLoop job fuel (k + 1)
      else CheckResult.ok := by
  rw [checkBetweenPipesLoop]
  by_cases hk : pipesAt job (k : Int) ≠ -1 ∧ k < 3
  · simp only [hk, and_self, if_true, firstRuleAt, ne_eq, not_false_eq_true]
    have e1 : (pipesAt job ↑k - 1 = job.append ∨ pipesAt job ↑k - 1 = job.redirect) ↔
        (job.append = pipesAt job ↑k - 1 ∨ job.redirect = pipesAt job ↑k - 1) := by
      constructor <;> (intro h; rcases h with h | h <;> [left; right] <;> exact h.symm)
    have e4 : (pipesAt job ↑k + 1 = job.append ∨ pipesAt job ↑k + 1 = job.redirect ∨
        pipesAt job ↑k + 1 = job.background) ↔
        (job.append = pipesAt job ↑k + 1 ∨ job.redirect = pipesAt job ↑k + 1 ∨
          job.background = pipesAt job ↑k + 1) := by
      constructor <;>
        (intro h; rcases h with h | h | h <;> [left; (right; left); (right; right)] <;>
          exact h.symm)
    simp only [e1, e4]
    split_ifs <;> rfl
  · rw [if_neg hk, if_neg hk]

theorem checkBetweenPipes_rules (job : Job) :
    checkBetweenPipes job =
      match betweenPipesRules job with
      | some e => CheckResult.fail e
      | none => CheckResult.ok := by
  unfold checkBetweenPipes betweenPipesRules recordedPipes
  rw [checkBetweenPipesLoop_step]
  by_cases h0 : pipesAt job 0 = -1
  · simp [h0]
  · cases hr0 : firstRuleAt job (pipesAt job 0) with
    | some e => simp [h0, hr0, List.takeWhile_cons]
    | none =>
      rw [checkBetweenPipesLoop_step]
      by_cases h1 : pipesAt job 1 = -1
      · simp [h0, h1, hr0, List.takeWhile_cons]
      · cases hr1 : firstRuleAt job (pipesAt job 1) with
        | some e => simp [h0, h1, hr0, hr1, List.takeWhile_cons]
        | none =>
          rw [checkBetweenPipesLoop_step]
          by_cases h2 : pipesAt job 2 = -1
          · simp [h0, h1, h2, hr0, hr1, List.takeWhile_cons]
          · cases hr2 : firstRuleAt job (pipesAt job 2) with
            | some e => simp [h0, h1, h2, hr0, hr1, hr2, List.takeWhile_cons]
            | none =>
              rw [checkBetweenPipesLoop_step]
              simp [h0, h1, h2, hr0, hr1, hr2, List.takeWhile_cons]

theorem freshArray_eq (junk : Nat → Int) :
    freshArray junk = [junk 0, junk 1, junk 2, junk 3] := rfl

/-- The array `pids` after the forks holds, in the slot of every child, the
process id of that child. -/
theorem pidsAfter_spawnAll (fork : Nat → Int) (junk : Nat → Int)
    (args : List (Option Token)) (job : Job) :
    ∀ c ∈ spawnAll fork args job,
      (pidsAfter (freshArray junk) (spawnAll fork args job)).getD c.slot (-1) = c.pid := by
  intro c hc
  unfold spawnAll at hc ⊢
  rw [freshArray_eq]
  by_cases h1 : job.numCommands > 1 <;> by_cases h2 : job.numCommands > 2 <;>
    by_cases h3 : job.numCommands > 3 <;>
    simp only [h1, h2, h3, if_true, if_false, List.append_nil, List.singleton_append,
      List.cons_append, List.nil_append, List.mem_cons, List.mem_singleton,
      List.not_mem_nil, or_false] at hc ⊢ <;>
    (rcases hc with rfl | rfl | rfl | rfl) <;> simp [pidsAfter]

theorem getStatusLoop_waited (waitpid : Int → WaitResult) (pids : List Int) (n : Nat) :
    ∀ (i : Nat) (status : List Int),
      (getStatusLoop waitpid pids n i status).2 =
        (List.range' i n).map (fun j => pids.getD j (-1)) := by
  induction n with
  | zero => intro i status; simp [getStatusLoop]
  | succ m ih =>
    intro i status
    simp only [getStatusLoop, ih, List.range'_succ, List.map_cons]

theorem getStatusLoop_length (waitpid : Int → WaitResult) (pids : List Int) (n : Nat) :
    ∀ (i : Nat) (status : List Int),
      (getStatusLoop waitpid pids n i status).1.length = status.length := by
  induction n with
  | zero => intro i status; simp [getStatusLoop]
  | succ m ih =>
    intro i status
    simp only [getStatusLoop, ih]
    cases (waitpid (pids.getD i (-1))).stored <;> simp

/-- After the loop of `getStatus`, a slot inside the array that the loop
passed and for whose process `waitpid` stored a status holds that status. -/
theorem getStatusLoop_stored (waitpid : Int → WaitResult) (pids : List Int) (n : Nat) :
    ∀ (i : Nat) (status : List Int) (j : Nat) (s : Int),
      i ≤ j → j < i + n → j < status.length →
      (waitpid (pids.getD j (-1))).stored = some s →
      (getStatusLoop waitpid pids n i status).1.getD j 0 = s := by
  induction n with
  | zero => intro i status j s h1 h2; omega
  | succ m ih =>
    intro i status j s h1 h2 h3 hs
    simp only [getStatusLoop]
    by_cases hij : i = j
    · subst hij
      rw [hs]
      simp only
      have hkeep : ∀ (k : Nat) (i' : Nat) (st : List Int), i < i' →
          (getStatusLoop waitpid pids k i' st).1.getD i 0 = st.getD i 0 := by
        intro k
        induction k with
        | zero => intro i' st _; simp [getStatusLoop]
        | succ k ihk =>
          intro i' st hlt
          simp only [getStatusLoop]
          rw [ihk (i' + 1) _ (by omega)]
          cases (waitpid (pids.getD i' (-1))).stored with
          | none => rfl
          | some v =>
            simp only [List.getD_eq_getElem?_getD]
            rw [List.getElem?_set_ne (by omega)]
      rw [hkeep m (i + 1) _ (by omega)]
      simp [List.getD_eq_getElem?_getD, List.getElem?_set, h3]
    · apply ih (i + 1) _ j s (by omega) (by omega) _ hs
      cases (waitpid (pids.getD i (-1))).stored <;> simp [h3]

/-- With `k` pipe tokens, `k ≤ 3`, the stage count after
`freeAllSpecialChars` is `k + 1`. -/
theorem prepare_numCommands (tokens : List Token)
    (hk3 : (tokens.indexesOf opPipe).length ≤ 3) :
    (prepare tokens).2.numCommands = ((tokens.indexesOf opPipe).length : Int) + 1 := by
  unfold prepare freeAllSpecialChars
  rw [buildJob_eq]
  have hp := pipesFrom_eq tokens 0 0 (List.replicate MAX_PIPES (-1))
    (by simpa [MAX_PIPES] using hk3)
  simp only [List.take_zero, List.nil_append, Nat.zero_add, MAX_PIPES,
    List.drop_replicate] at hp
  generalize tokens.indexesOf opPipe = l at hk3 hp
  simp only [MAX_PIPES, hp]
  rcases l with _ | ⟨a, _ | ⟨b, _ | ⟨c, _ | ⟨d, l'⟩⟩⟩⟩
  · simp [freePipesLoop, pipesAt]
  · have ha : ((a : Nat) : Int) ≠ -1 := by omega
    simp [freePipesLoop, pipesAt, ha]
  · have ha : ((a : Nat) : Int) ≠ -1 := by omega
    have hb : ((b : Nat) : Int) ≠ -1 := by omega
    simp [freePipesLoop, pipesAt, ha, hb]
  · have ha : ((a : Nat) : Int) ≠ -1 := by omega
    have hb : ((b : Nat) : Int) ≠ -1 := by omega
    have hc : ((c : Nat) : Int) ≠ -1 := by omega
    simp [freePipesLoop, pipesAt, ha, hb, hc]
  · simp at hk3

theorem spawnAll_shape (fork : Nat → Int) (args : List (Option Token)) (job : Job) (k : Nat)
    (hk3 : k ≤ 3) (hn : job.numCommands = (k : Int) + 1) :
    (spawnAll fork args job).map (fun c => c.slot) = List.range (k + 1) ∧
    (spawnAll fork args job).map (fun c => c.pid) = (List.range (k + 1)).map fork := by
  unfold spawnAll
  interval_cases k <;> simp [hn, List.range_succ]

/-- The foreground branch of `executeCommands` for a stage count `k + 1`
with `k ≤ 3`. -/
theorem executeCommands_foreground (fork : Nat → Int) (waitpid : Int → WaitResult)
    (pidsJunk statusJunk : Nat → Int) (addr : Nat) (cmd : List Char)
    (args : List (Option Token)) (job : Job) (head : List BackgroundProcess) (k : Nat)
    (hk3 : k ≤ 3) (hn : job.numCommands = (k : Int) + 1) (hb : job.background = -1) :
    (executeCommands fork waitpid pidsJunk statusJunk addr cmd args job head).waited =
      (List.range (k + 1)).map fork ∧
    (executeCommands fork waitpid pidsJunk statusJunk addr cmd args job head).head = head ∧
    ∃ status,
      (executeCommands fork waitpid pidsJunk statusJunk addr cmd args job head).result =
        some status ∧
      status.length = MAX_COMMANDS ∧
      ∀ (i : Nat) (s : Int), i < k + 1 → (waitpid (fork i)).stored = some s →
        status.getD i 0 = s := by
  have hpid : ∀ i, i < k + 1 →
      (pidsAfter (freshArray pidsJunk) (spawnAll fork args job)).getD i (-1) = fork i := by
    intro i hi
    have hmem : ∃ c ∈ spawnAll fork args job, c.slot = i ∧ c.pid = fork i := by
      unfold spawnAll
      interval_cases k <;> interval_cases i <;> simp [hn]
    obtain ⟨c, hc, hslot, hpid⟩ := hmem
    have hget := pidsAfter_spawnAll fork pidsJunk args job c hc
    rw [hslot, hpid] at hget
    exact hget
  have htoNat : job.numCommands.toNat = k + 1 := by rw [hn]; omega
  unfold executeCommands
  simp only [hb, if_true, getStatus, htoNat]
  refine ⟨?_, ?_, ?_⟩
  · rw [getStatusLoop_waited, List.range_eq_range']
    apply List.map_congr_left
    intro i hi
    rw [List.mem_range'_1] at hi
    exact hpid i (by omega)
  · trivial
  · refine ⟨_, rfl, ?_, ?_⟩
    · rw [getStatusLoop_length]
      rfl
    · intro i s hi hs
      apply getStatusLoop_stored waitpid _ (k + 1) 0 _ i s (by omega) (by omega)
      · rw [freshArray_eq]
        simp
        omega
      · rw [hpid i hi]
        exact hs

theorem pidsAfter_length (pids0 : List Int) (children : List Child) :
    (pidsAfter pids0 children).length = pids0.length := by
  unfold pidsAfter
  induction children generalizing pids0 with
  | nil => rfl
  | cons c rest ih => simp [List.foldl_cons, ih]

theorem getD_set (l : List Int) (i j : Nat) (a d : Int) :
    (l.set i a).getD j d = if i = j ∧ i < l.length then a else l.getD j d := by
  simp only [List.getD_eq_getElem?_getD, List.getElem?_set]
  by_cases hij : i = j
  · subst hij
    by_cases hl : i < l.length
    · simp [hl]
    · simp [hl, List.getElem?_eq_none (Nat.le_of_not_lt hl)]
  · simp [hij]

theorem pollLoop_frame (wnohang : Int → WaitResult) (n : Nat) :
    ∀ (i : Nat) (bp : BackgroundProcess),
      (pollLoop wnohang n i bp).addr = bp.addr ∧ (pollLoop wnohang n i bp).cmd = bp.cmd ∧
      (pollLoop wnohang n i bp).numCommands = bp.numCommands := by
  induction n with
  | zero => intro i bp; simp [pollLoop]
  | succ m ih =>
    intro i bp
    rw [pollLoop]
    dsimp only
    split_ifs
    · exact ih _ _
    · exact ih _ _
    · exact ih _ _

/-- The pid slots after the first loop of `checkCompletion`: a slot the
loop passed whose poll returned a non-zero value holds -1, every other slot
is unchanged. -/
theorem pollLoop_pids (wnohang : Int → WaitResult) (n : Nat) :
    ∀ (i : Nat) (bp : BackgroundProcess) (j : Nat),
      (pollLoop wnohang n i bp).pids.getD j (-1) =
        if i ≤ j ∧ j < i + n ∧ (wnohang (bp.pids.getD j (-1))).ret ≠ 0 then -1
        else bp.pids.getD j (-1) := by
  induction n with
  | zero =>
    intro i bp j
    have : ¬ (i ≤ j ∧ j < i + 0 ∧ (wnohang (bp.pids.getD j (-1))).ret ≠ 0) := by omega
    simp only [pollLoop, this, if_false]
  | succ m ih =>
    intro i bp j
    rw [pollLoop]
    by_cases hp : bp.pids.getD i (-1) ≠ -1
    · by_cases hr : (wnohang (bp.pids.getD i (-1))).ret ≠ 0
      · simp only [hp, hr, if_true, ne_eq, not_false_eq_true]
        rw [ih]
        simp only [getD_set]
        by_cases hij : i = j
        · subst hij
          by_cases hl : i < bp.pids.length
          · have c1 : ¬ (i + 1 ≤ i ∧ i < i + 1 + m ∧
                (wnohang (if i = i ∧ i < bp.pids.length then -1 else bp.pids.getD i (-1))).ret
                  ≠ 0) := by omega
            have c2 : (i ≤ i ∧ i < i + (m + 1) ∧ (wnohang (bp.pids.getD i (-1))).ret ≠ 0) :=
              ⟨Nat.le_refl _, by omega, hr⟩
            rw [if_neg c1, if_pos c2]
            simp [hl]
          · exfalso
            apply hp
            simp [List.getD_eq_getElem?_getD, List.getElem?_eq_none (Nat.le_of_not_lt hl)]
        · have hne : ¬ (i = j ∧ i < bp.pids.length) := fun h => hij h.1
          simp only [hne, if_false]
          have hiff : (i + 1 ≤ j ∧ j < i + 1 + m ∧ (wnohang (bp.pids.getD j (-1))).ret ≠ 0) ↔
              (i ≤ j ∧ j < i + (m + 1) ∧ (wnohang (bp.pids.getD j (-1))).ret ≠ 0) := by
            constructor
            · rintro ⟨a, b, c⟩; exact ⟨by omega, by omega, c⟩
            · rintro ⟨a, b, c⟩; exact ⟨by omega, by omega, c⟩
          simp only [hiff]
      · simp only [hp, hr, if_true, if_false, ne_eq, not_false_eq_true]
        rw [ih]
        simp only
        by_cases hij : i = j
        · subst hij
          have c1 : ¬ (i + 1 ≤ i ∧ i < i + 1 + m ∧ (wnohang (bp.pids.getD i (-1))).ret ≠ 0) := by
            omega
          have c2 : ¬ (i ≤ i ∧ i < i + (m + 1) ∧ (wnohang (bp.pids.getD i (-1))).ret ≠ 0) :=
            fun h => hr h.2.2
          rw [if_neg c1, if_neg c2]
        · have hiff : (i + 1 ≤ j ∧ j < i + 1 + m ∧ (wnohang (bp.pids.getD j (-1))).ret ≠ 0) ↔
              (i ≤ j ∧ j < i + (m + 1) ∧ (wnohang (bp.pids.getD j (-1))).ret ≠ 0) := by
            constructor
            · rintro ⟨a, b, c⟩; exact ⟨by omega, by omega, c⟩
            · rintro ⟨a, b, c⟩; exact ⟨by omega, by omega, c⟩
          simp only [hiff]
    · simp only [hp, if_false]
      rw [ih]
      by_cases hij : i = j
      · subst hij
        have c1 : ¬ (i + 1 ≤ i ∧ i < i + 1 + m ∧ (wnohang (bp.pids.getD i (-1))).ret ≠ 0) := by
          omega
        rw [if_neg c1]
        have hp' : bp.pids.getD i (-1) = -1 := by
          by_contra h
          exact hp h
        split_ifs
        · exact hp'
        · rfl
      · have hiff : (i + 1 ≤ j ∧ j < i + 1 + m ∧ (wnohang (bp.pids.getD j (-1))).ret ≠ 0) ↔
            (i ≤ j ∧ j < i + (m + 1) ∧ (wnohang (bp.pids.getD j (-1))).ret ≠ 0) := by
          constructor
          · rintro ⟨a, b, c⟩; exact ⟨by omega, by omega, c⟩
          · rintro ⟨a, b, c⟩; exact ⟨by omega, by omega, c⟩
        simp only [hiff]

theorem anyRunning_iff (n : Nat) :
    ∀ (i : Nat) (bp : BackgroundProcess),
      anyRunning n i bp = true ↔ ∃ j, i ≤ j ∧ j < i + n ∧ bp.pids.getD j (-1) ≠ -1 := by
  induction n with
  | zero =>
    intro i bp
    simp only [anyRunning, Bool.false_eq_true, false_iff]
    rintro ⟨j, h1, h2, _⟩
    omega
  | succ m ih =>
    intro i bp
    rw [anyRunning]
    by_cases hp : bp.pids.getD i (-1) ≠ -1
    · simp only [hp, if_true, ne_eq, not_false_eq_true, true_iff]
      exact ⟨i, Nat.le_refl _, by omega, hp⟩
    · simp only [hp, if_false]
      rw [ih]
      constructor
      · rintro ⟨j, a, b, c⟩
        exact ⟨j, by omega, by omega, c⟩
      · rintro ⟨j, a, b, c⟩
        have hij : i ≠ j := by
          intro h
          subst h
          exact hp c
        exact ⟨j, by omega, by omega, c⟩

theorem stillRunning_iff (wnohang : Int → WaitResult) (bp : BackgroundProcess) :
    stillRunning wnohang bp = true ↔
      ∃ j, j < bp.numCommands.toNat ∧ bp.pids.getD j (-1) ≠ -1 ∧
        (wnohang (bp.pids.getD j (-1))).ret = 0 := by
  unfold stillRunning
  rw [List.any_eq_true]
  constructor
  · rintro ⟨j, hj, hd⟩
    rw [List.mem_range] at hj
    exact ⟨j, hj, by simpa using hd⟩
  · rintro ⟨j, hj, hd⟩
    exact ⟨j, List.mem_range.mpr hj, by simpa using hd⟩

/-- The second loop of `checkCompletion` finds a running command exactly
when the job still has a stage whose poll returned 0. -/
theorem anyRunning_pollLoop (wnohang : Int → WaitResult) (bp : BackgroundProcess) :
    anyRunning (pollLoop wnohang bp.numCommands.toNat 0 bp).numCommands.toNat 0
      (pollLoop wnohang bp.numCommands.toNat 0 bp) = stillRunning wnohang bp := by
  rw [(pollLoop_frame wnohang _ 0 bp).2.2, Bool.eq_iff_iff, anyRunning_iff, stillRunning_iff]
  constructor
  · rintro ⟨j, _, hj, hne⟩
    rw [pollLoop_pids] at hne
    refine ⟨j, by omega, ?_, ?_⟩
    · intro h
      apply hne
      split_ifs
      · rfl
      · exact h
    · by_contra hr
      apply hne
      rw [if_pos ⟨Nat.zero_le _, hj, hr⟩]
  · rintro ⟨j, hj, hne, hr⟩
    refine ⟨j, Nat.zero_le _, by omega, ?_⟩
    rw [pollLoop_pids]
    have : ¬ (0 ≤ j ∧ j < 0 + bp.numCommands.toNat ∧
        (wnohang (bp.pids.getD j (-1))).ret ≠ 0) := fun h => h.2.2 hr
    rw [if_neg this]
    exact hne

theorem checkCompletion_spec (wnohang : Int → WaitResult) (bp : BackgroundProcess) :
    (polled wnohang bp).addr = bp.addr ∧
    (checkCompletion wnohang bp).2.1 = (if stillRunning wnohang bp then 0 else 1) ∧
    (checkCompletion wnohang bp).2.2 =
      (if stillRunning wnohang bp then [] else [completionOf wnohang bp]) := by
  have hany := anyRunning_pollLoop wnohang bp
  have hfr := pollLoop_frame wnohang bp.numCommands.toNat 0 bp
  unfold polled completionOf polled checkCompletion
  simp only [hany]
  by_cases hs : stillRunning wnohang bp = true
  · simp only [hs, if_true]
    exact ⟨hfr.1, trivial, trivial⟩
  · simp only [hs, if_false, Bool.false_eq_true]
    refine ⟨hfr.1, trivial, ?_⟩
    rw [hfr.2.1, hfr.2.2]

theorem nodeAt_append (pre rest : List BackgroundProcess) (n : BackgroundProcess)
    (hpre : ∀ x ∈ pre, x.addr ≠ n.addr) :
    nodeAt (pre ++ n :: rest) n.addr = some n := by
  induction pre with
  | nil => simp [nodeAt]
  | cons x xs ih =>
    have hx : x.addr ≠ n.addr := hpre x (List.mem_cons_self _ _)
    simp only [List.cons_append, nodeAt, hx, if_false]
    exact ih (fun y hy => hpre y (List.mem_cons_of_mem _ hy))

theorem nextOf_append (pre rest : List BackgroundProcess) (n : BackgroundProcess)
    (hpre : ∀ x ∈ pre, x.addr ≠ n.addr) :
    nextOf (pre ++ n :: rest) n.addr = rest.head?.map (fun y => y.addr) := by
  induction pre with
  | nil => simp [nextOf]
  | cons x xs ih =>
    have hx : x.addr ≠ n.addr := hpre x (List.mem_cons_self _ _)
    simp only [List.cons_append, nextOf, hx, if_false]
    exact ih (fun y hy => hpre y (List.mem_cons_of_mem _ hy))

theorem storeNode_append (pre rest : List BackgroundProcess) (n m : BackgroundProcess)
    (hm : m.addr = n.addr) (hpre : ∀ x ∈ pre, x.addr ≠ n.addr)
    (hrest : ∀ x ∈ rest, x.addr ≠ n.addr) :
    storeNode (pre ++ n :: rest) m = pre ++ m :: rest := by
  unfold storeNode
  have hkeep : ∀ l : List BackgroundProcess, (∀ x ∈ l, x.addr ≠ n.addr) →
      l.map (fun x => if x.addr = m.addr then m else x) = l := by
    intro l hl
    induction l with
    | nil => rfl
    | cons x xs ih =>
      have hx : ¬ x.addr = m.addr := by
        rw [hm]
        exact hl x (List.mem_cons_self _ _)
      simp only [List.map_cons, hx, if_false]
      exact congrArg (fun l => x :: l) (ih (fun y hy => hl y (List.mem_cons_of_mem _ hy)))
  rw [List.map_append, List.map_cons, hkeep pre hpre, hkeep rest hrest, hm]
  simp

theorem removeLoop_append (pre rest : List BackgroundProcess) (n : BackgroundProcess)
    (hpre : ∀ x ∈ pre, x.addr ≠ n.addr) :
    removeLoop (pre ++ n :: rest) n.addr = pre ++ rest := by
  induction pre with
  | nil => simp [removeLoop]
  | cons x xs ih =>
    have hx : x.addr ≠ n.addr := hpre x (List.mem_cons_self _ _)
    simp only [List.cons_append, removeLoop, hx, if_false]
    exact congrArg (fun l => x :: l) (ih (fun y hy => hpre y (List.mem_cons_of_mem _ hy)))

theorem removeBackground_append (pre rest : List BackgroundProcess) (n : BackgroundProcess)
    (hpre : ∀ x ∈ pre, x.addr ≠ n.addr) :
    removeBackground (pre ++ n :: rest) n.addr = pre ++ rest := by
  cases pre with
  | nil => simp [removeBackground]
  | cons x xs =>
    have hx : x.addr ≠ n.addr := hpre x (List.mem_cons_self _ _)
    simp only [List.cons_append, removeBackground, hx, if_false]
    exact congrArg (fun l => x :: l)
      (removeLoop_append xs rest n (fun y hy => hpre y (List.mem_cons_of_mem _ hy)))

/-- The loop of `checkAllBackground`, started at the first node of `rest`
with the nodes `pre` in front of it already visited and kept: it keeps of
`rest` the nodes that are still running, polled, and reports the others. -/
theorem checkAllLoop_spec (wnohang : Int → WaitResult) (rest : List BackgroundProcess) :
    ∀ (pre : List BackgroundProcess) (out : List Completion) (fuel : Nat),
      ((pre ++ rest).map (fun x => x.addr)).Nodup → rest.length < fuel →
      checkAllLoop wnohang fuel (rest.head?.map (fun y => y.addr)) (pre ++ rest) out =
        (pre ++ (rest.filter (stillRunning wnohang)).map (polled wnohang),
          out ++ (rest.filter (fun bp => !stillRunning wnohang bp)).map
            (completionOf wnohang)) := by
  induction rest with
  | nil =>
    intro pre out fuel _ hfuel
    cases fuel with
    | zero => simp at hfuel
    | succ f => simp [checkAllLoop]
  | cons n rest' ih =>
    intro pre out fuel hnd hfuel
    cases fuel with
    | zero => simp at hfuel
    | succ f =>
      rw [List.map_append, List.map_cons, List.nodup_append] at hnd
      obtain ⟨hndpre, hndrest, hdisj⟩ := hnd
      rw [List.nodup_cons] at hndrest
      have hpre : ∀ x ∈ pre, x.addr ≠ n.addr := by
        intro x hx heq
        exact hdisj (List.mem_map_of_mem (fun x => x.addr) hx)
          (by rw [heq]; exact List.mem_cons_self _ _)
      have hrest : ∀ x ∈ rest', x.addr ≠ n.addr := by
        intro x hx heq
        exact hndrest.1 (by rw [← heq]; exact List.mem_map_of_mem (fun x => x.addr) hx)
      obtain ⟨haddr, hret, hout⟩ := checkCompletion_spec wnohang n
      have hstore := storeNode_append pre rest' n (polled wnohang n) haddr hpre hrest
      have hpre' : ∀ x ∈ pre, x.addr ≠ (polled wnohang n).addr := by
        rw [haddr]; exact hpre
      have hnext := nextOf_append pre rest' (polled wnohang n) hpre'
      have hrem := removeBackground_append pre rest' (polled wnohang n) hpre'
      rw [haddr] at hnext hrem
      simp only [List.head?_cons, Option.map_some', checkAllLoop, nodeAt_append pre rest' n hpre]
      change (if (checkCompletion wnohang n).2.1 ≠ 0 then
          checkAllLoop wnohang f (nextOf (storeNode (pre ++ n :: rest') (polled wnohang n)) n.addr)
            (removeBackground (storeNode (pre ++ n :: rest') (polled wnohang n)) n.addr)
            (out ++ (checkCompletion wnohang n).2.2)
        else
          checkAllLoop wnohang f (nextOf (storeNode (pre ++ n :: rest') (polled wnohang n)) n.addr)
            (storeNode (pre ++ n :: rest') (polled wnohang n))
            (out ++ (checkCompletion wnohang n).2.2)) = _
      rw [hstore, hnext, hrem, hret, hout]
      by_cases hs : stillRunning wnohang n = true
      · simp only [hs, if_true, ne_eq, not_true_eq_false, if_false, List.append_nil]
        have hnd' : (((pre ++ [polled wnohang n]) ++ rest').map (fun x => x.addr)).Nodup := by
          rw [List.map_append, List.map_append, List.nodup_append]
          refine ⟨?_, hndrest.2, ?_⟩
          · rw [List.nodup_append]
            refine ⟨hndpre, by simp, ?_⟩
            intro a ha hb
            simp only [List.map_cons, List.map_nil, List.mem_singleton] at hb
            rw [hb, haddr] at ha
            exact hdisj ha (List.mem_cons_self _ _)
          · intro a ha hb
            rw [List.mem_append] at ha
            rcases ha with ha | ha
            · exact hdisj ha (List.mem_cons_of_mem _ hb)
            · simp only [List.map_cons, List.map_nil, List.mem_singleton] at ha
              rw [ha, haddr] at hb
              exact hndrest.1 hb
        have := ih (pre ++ [polled wnohang n]) out f hnd' (by simp at hfuel; omega)
        rw [List.append_assoc, List.singleton_append] at this
        rw [this]
        simp [List.filter_cons, hs]
      · have hs' : stillRunning wnohang n = false := by simpa using hs
        simp only [hs', Bool.false_eq_true, if_false, ne_eq, one_ne_zero, not_false_eq_true,
          if_true]
        have hnd' : ((pre ++ rest').map (fun x => x.addr)).Nodup := by
          rw [List.map_append, List.nodup_append]
          exact ⟨hndpre, hndrest.2, fun a ha hb => hdisj ha (List.mem_cons_of_mem _ hb)⟩
        rw [ih pre (out ++ [completionOf wnohang n]) f hnd' (by simp at hfuel; omega)]
        simp [List.filter_cons, hs']

theorem polled_eq (wnohang : Int → WaitResult) (bp : BackgroundProcess) :
    polled wnohang bp = pollLoop wnohang bp.numCommands.toNat 0 bp := by
  unfold polled checkCompletion
  dsimp only
  split_ifs <;> rfl

/-- A job is still running in the sense of `stillRunning` exactly when,
after its poll, one of its commands has a pid other than -1. -/
theorem stillRunning_iff_polled (wnohang : Int → WaitResult) (bp : BackgroundProcess) :
    stillRunning wnohang bp = true ↔
      ∃ j, j < bp.numCommands.toNat ∧ (polled wnohang bp).pids.getD j (-1) ≠ -1 := by
  rw [← anyRunning_pollLoop, anyRunning_iff, (pollLoop_frame wnohang _ 0 bp).2.2, polled_eq]
  constructor
  · rintro ⟨j, _, h2, h3⟩
    exact ⟨j, by omega, h3⟩
  · rintro ⟨j, h2, h3⟩
    exact ⟨j, Nat.zero_le _, by omega, h3⟩

/-- The slip the amended C5 leaves out, on the accepted line `a > >> b`:
the token after `>` is the recorded `>>`; the validator probes a file of
that name, `freeAllSpecialChars` sets the slot to NULL, and the final stage
is handed a NULL path. -/
theorem redirect_target_freed_example :
    (checkParsingError (fun _ => true) (argsOf [['a'], opRedirect, opAppend, ['b']])
      (buildJob (argsOf [['a'], opRedirect, opAppend, ['b']]))) =
      ⟨SUCCESS, [], [⟨some opAppend, [OFlag.O_WRONLY, OFlag.O_CREAT]⟩]⟩ ∧
    checkOutputRedirect (prepare [['a'], opRedirect, opAppend, ['b']]).1
      (prepare [['a'], opRedirect, opAppend, ['b']]).2 =
      some ⟨none, [OFlag.O_TRUNC, OFlag.O_WRONLY, OFlag.O_CREAT]⟩ := by
  refine ⟨by decide, by decide⟩

/-! ## The claims -/

/-- C1, evaluated at the line `& a &`: its first token is the operator `&`,
but the descriptor keeps only the last `&` (index 2), so `checkAtIndexZero`
and the whole validator return SUCCESS without any diagnostic. -/
theorem leading_background_not_rejected (openOK : OpenCall → Bool) :
    parseCmd "& a &".toList = [opBackground, ['a'], opBackground] ∧
    (getArgs "& a &".toList).1 = some (argsOf [opBackground, ['a'], opBackground]) ∧
    (buildJob (argsOf [opBackground, ['a'], opBackground])).background = 2 ∧
    checkParsingError openOK (argsOf [opBackground, ['a'], opBackground])
      (buildJob (argsOf [opBackground, ['a'], opBackground])) = ⟨SUCCESS, [], []⟩ := by
  refine ⟨by decide, by decide, by decide, ?_⟩
  rfl

/-- C2, evaluated at the line `a | b |`: two pipes, no background sign, the
leading-operator and per-pipe checks pass and the final recorded pipe
position is the last index 3; `checkLastIndex` reads `pipes[numCommands - 1]`
while `numCommands` is still 1, compares `pipes[0] = 1` with 3 and returns
SUCCESS, and so does the validator. -/
theorem trailing_second_pipe_not_rejected (openOK : OpenCall → Bool) :
    (getArgs "a | b |".toList).1 = some (argsOf [['a'], opPipe, ['b'], opPipe]) ∧
    buildJob (argsOf [['a'], opPipe, ['b'], opPipe]) =
      { pipes := [1, 3, -1], append := -1, redirect := -1, background := -1,
        numCommands := 1 } ∧
    checkAtIndexZero (buildJob (argsOf [['a'], opPipe, ['b'], opPipe])) = CheckResult.ok ∧
    checkBetweenPipes (buildJob (argsOf [['a'], opPipe, ['b'], opPipe])) = CheckResult.ok ∧
    countArgs (argsOf [['a'], opPipe, ['b'], opPipe]) - 1 = 3 ∧
    checkLastIndex (argsOf [['a'], opPipe, ['b'], opPipe])
      (buildJob (argsOf [['a'], opPipe, ['b'], opPipe])) = CheckResult.ok ∧
    checkParsingError openOK (argsOf [['a'], opPipe, ['b'], opPipe])
      (buildJob (argsOf [['a'], opPipe, ['b'], opPipe])) = ⟨SUCCESS, [], []⟩ := by
  refine ⟨by decide, by decide, by decide, by decide, by decide, by decide, ?_⟩
  rfl

/-- C3: `checkTooManyArgs` returns 1 and `getArgs` returns NULL with the
too-many-arguments diagnostic, exactly when the line has more than 16
maximal runs of non-space characters. -/
theorem getArgs_tooManyArguments_iff (cmd : List Char) :
    ((checkTooManyArgs cmd).1 = 1 ∧ getArgs cmd = (none, [ErrMsg.TooManyArguments])) ↔
      16 < numFields cmd := by
  rw [← countTokens_eq_numFields]
  unfold getArgs checkTooManyArgs
  by_cases h : countTokens cmd > 16
  · simp [h]
  · simp [h]

/-- C4, evaluated at the line `a & b &`: the validator accepts it, only the
last `&` is set to NULL, and the single stage is executed with the argument
vector `["a", "&", "b"]`, which contains an operator token. -/
theorem accepted_argv_keeps_background_sign (openOK : OpenCall → Bool) :
    (getArgs "a & b &".toList).1 =
      some (argsOf [['a'], opBackground, ['b'], opBackground]) ∧
    (checkParsingError openOK (argsOf [['a'], opBackground, ['b'], opBackground])
      (buildJob (argsOf [['a'], opBackground, ['b'], opBackground]))).ret = SUCCESS ∧
    runLine openOK "a & b &".toList = some [(some ['a'], [['a'], opBackground, ['b']])] ∧
    opBackground ∈ [['a'], opBackground, ['b']] := by
  refine ⟨by decide, ?_, ?_, by decide⟩
  · rfl
  · rfl

/-- C6: `openableFile` returns FAILURE exactly when the redirect position is
set and opening the slot after it fails, and it then prints the
cannot-open diagnostic; when redirect is unset, append is set and opening
the append target fails, it prints the diagnostic but returns SUCCESS. -/
theorem openableFile_failure_iff (openOK : OpenCall → Bool) (args : List (Option Token))
    (job : Job) :
    ((openableFile openOK args job).ret = FAILURE ↔
      (job.redirect ≠ -1 ∧
        openOK ⟨argAt args (job.redirect + 1), [OFlag.O_WRONLY, OFlag.O_CREAT]⟩ = false)) ∧
    ((openableFile openOK args job).ret = FAILURE →
      (openableFile openOK args job).err = [ErrMsg.CannotOpenOutputFile]) ∧
    (job.redirect = -1 → job.append ≠ -1 →
      openOK ⟨argAt args (job.append + 1), [OFlag.O_WRONLY, OFlag.O_CREAT]⟩ = false →
      openableFile openOK args job =
        ⟨SUCCESS, [ErrMsg.CannotOpenOutputFile],
          [⟨argAt args (job.append + 1), [OFlag.O_WRONLY, OFlag.O_CREAT]⟩]⟩) := by
  refine ⟨?_, ?_, ?_⟩
  · unfold openableFile
    by_cases hr : job.redirect = -1
    · by_cases ha : job.append = -1
      · simp [hr, ha, FAILURE]
      · by_cases ho : openOK ⟨argAt args (job.append + 1), [OFlag.O_WRONLY, OFlag.O_CREAT]⟩ = false
        · simp [hr, ha, ho, FAILURE, SUCCESS]
        · simp [hr, ha, ho, FAILURE]
    · by_cases ho : openOK ⟨argAt args (job.redirect + 1), [OFlag.O_WRONLY, OFlag.O_CREAT]⟩ = false
      · simp [hr, ho]
      · simp [hr, ho, FAILURE]
  · unfold openableFile
    by_cases hr : job.redirect = -1
    · by_cases ha : job.append = -1
      · simp [hr, ha, FAILURE]
      · by_cases ho : openOK ⟨argAt args (job.append + 1), [OFlag.O_WRONLY, OFlag.O_CREAT]⟩ = false
        · simp [hr, ha, ho, FAILURE, SUCCESS]
        · simp [hr, ha, ho, FAILURE]
    · by_cases ho : openOK ⟨argAt args (job.redirect + 1), [OFlag.O_WRONLY, OFlag.O_CREAT]⟩ = false
      · simp [hr, ho]
      · simp [hr, ho, FAILURE]
  · intro hr ha ho
    unfold openableFile
    simp [hr, ha, ho]

/-- C6 at concrete inputs: for `ls > f` with no file openable the probe
fails, and for `ls >> f` with no file openable it succeeds. -/
theorem openableFile_failure_iff_witness :
    (openableFile (fun _ => false) (argsOf [['l', 's'], opRedirect, ['f']])
      (buildJob (argsOf [['l', 's'], opRedirect, ['f']]))).ret = FAILURE ∧
    openableFile (fun _ => false) (argsOf [['l', 's'], opAppend, ['f']])
      (buildJob (argsOf [['l', 's'], opAppend, ['f']])) =
      ⟨SUCCESS, [ErrMsg.CannotOpenOutputFile],
        [⟨argAt (argsOf [['l', 's'], opAppend, ['f']])
          ((buildJob (argsOf [['l', 's'], opAppend, ['f']])).append + 1),
          [OFlag.O_WRONLY, OFlag.O_CREAT]⟩]⟩ :=
  ⟨(openableFile_failure_iff (fun _ => false) (argsOf [['l', 's'], opRedirect, ['f']])
      (buildJob (argsOf [['l', 's'], opRedirect, ['f']]))).1.mpr ⟨by decide, rfl⟩,
    (openableFile_failure_iff (fun _ => false) (argsOf [['l', 's'], opAppend, ['f']])
      (buildJob (argsOf [['l', 's'], opAppend, ['f']]))).2.2 (by decide) (by decide) rfl⟩

/-- C7: on a line that passes the 16-field check every string stored by
`parseCmd` is one of the four operator strings or a non-empty word free of
space, `|`, `&` and `>`; no stored string is empty; and `a|b` is split
into `a`, `|`, `b` although it contains no space. -/
theorem parseCmd_tokens_wellformed (cmd : List Char) (_hfields : (checkTooManyArgs cmd).1 = 0) :
    (∀ t ∈ parseCmd cmd, isOperatorToken t ∨ isWordToken t) ∧
    [] ∉ parseCmd cmd ∧
    parseCmd ['a', '|', 'b'] = [['a'], opPipe, ['b']] := by
  have hall : ∀ t ∈ parseCmd cmd, isOperatorToken t ∨ isWordToken t := by
    rw [parseCmd_eq_tokensFrom]
    exact tokensFrom_wellformed cmd.length [] cmd (Nat.le_refl _) (by simp)
  refine ⟨hall, ?_, by decide⟩
  intro hmem
  rcases hall [] hmem with hop | hword
  · rcases hop with h | h | h | h <;> simp [opPipe, opBackground, opRedirect, opAppend] at h
  · exact hword.1 rfl

/-- C7 on the line `  a|b  >>c `, which has three fields: leading, doubled
and trailing spaces leave no empty string, and the operators split words. -/
theorem parseCmd_tokens_wellformed_witness :
    (checkTooManyArgs "  a|b  >>c ".toList).1 = 0 ∧
    (∀ t ∈ parseCmd "  a|b  >>c ".toList, isOperatorToken t ∨ isWordToken t) ∧
    [] ∉ parseCmd "  a|b  >>c ".toList ∧
    parseCmd ['a', '|', 'b'] = [['a'], opPipe, ['b']] :=
  ⟨by decide, parseCmd_tokens_wellformed "  a|b  >>c ".toList (by decide)⟩

/-- C8: a maximal run of `n` characters `>` (the text before it does not end
in `>`, the text after it does not start with `>`) is stored as `n / 2`
strings `>>` followed by `n % 2` strings `>`, between the tokens of the
text before and the tokens of the text after; in particular a run `>>` is
one append token. -/
theorem parseCmd_redirect_run (pre post : List Char) (n : Nat) (hn : 0 < n)
    (hpre : pre.getLast? ≠ some '>') (hpost : post.head? ≠ some '>') :
    parseCmd (pre ++ List.replicate n '>' ++ post) =
      parseCmd pre ++ List.replicate (n / 2) opAppend ++ List.replicate (n % 2) opRedirect ++
        parseCmd post := by
  simp only [parseCmd_eq_tokensFrom]
  obtain ⟨k, rfl⟩ : ∃ k, n = k + 1 := ⟨n - 1, by omega⟩
  have hrun := tokensFrom_redirect_run (k + 1) post hpost
  rw [List.replicate_succ] at hrun ⊢
  rw [List.cons_append] at hrun
  rw [List.append_assoc, List.cons_append,
    tokensFrom_split_redirect pre.length [] pre _ (Nat.le_refl _) hpre, hrun]
  simp

/-- C8 on `ls>>>out` and `a >> b`: a run of three gives `>>` then `>`, a run
of two gives the single token `>>`. -/
theorem parseCmd_redirect_run_witness :
    0 < 3 ∧ "ls".toList.getLast? ≠ some '>' ∧ "out".toList.head? ≠ some '>' ∧
    parseCmd ("ls".toList ++ List.replicate 3 '>' ++ "out".toList) =
      parseCmd "ls".toList ++ List.replicate (3 / 2) opAppend ++
        List.replicate (3 % 2) opRedirect ++ parseCmd "out".toList ∧
    parseCmd "ls>>>out".toList = [['l', 's'], opAppend, opRedirect, ['o', 'u', 't']] ∧
    parseCmd "a >> b".toList = [['a'], opAppend, ['b']] :=
  ⟨by decide, by decide, by decide,
    parseCmd_redirect_run "ls".toList "out".toList 3 (by decide) (by decide) (by decide),
    by decide, by decide⟩

/-- C9: on a line with at most 16 fields `getArgs` returns NULL exactly when
every character of the line is a space (in particular when the line is
empty), and it then prints nothing; otherwise it returns the array whose
slot 0 holds the first of at least one stored string. -/
theorem getArgs_null_iff_blank (cmd : List Char) (hfields : numFields cmd ≤ 16) :
    ((getArgs cmd).1 = none ↔ ∀ c ∈ cmd, c = ' ') ∧
    ((∀ c ∈ cmd, c = ' ') → getArgs cmd = (none, [])) ∧
    (¬ (∀ c ∈ cmd, c = ' ') →
      ∃ t rest, parseCmd cmd = t :: rest ∧
        getArgs cmd = (some (argsArray (t :: rest)), []) ∧
        argAt (argsArray (t :: rest)) 0 = some t) := by
  have hchk : checkTooManyArgs cmd = (0, []) := by
    unfold checkTooManyArgs
    rw [countTokens_eq_numFields]
    simp
    omega
  have hblank : (∀ c ∈ cmd, c = ' ') → getArgs cmd = (none, []) := by
    intro hb
    have hp := (parseCmd_eq_nil_iff cmd).mpr hb
    unfold getArgs
    rw [hchk, hp]
    simp [argsArray, ARGS_SLOTS]
  have hsome : ¬ (∀ c ∈ cmd, c = ' ') →
      ∃ t rest, parseCmd cmd = t :: rest ∧
        getArgs cmd = (some (argsArray (t :: rest)), []) ∧
        argAt (argsArray (t :: rest)) 0 = some t := by
    intro hb
    cases hp : parseCmd cmd with
    | nil => exact absurd ((parseCmd_eq_nil_iff cmd).mp hp) hb
    | cons t rest =>
      refine ⟨t, rest, rfl, ?_, ?_⟩
      · unfold getArgs
        rw [hchk, hp]
        simp [argsArray, ARGS_SLOTS]
      · simp [argAt, argsArray, ARGS_SLOTS]
  refine ⟨⟨?_, fun hb => by rw [hblank hb]⟩, hblank, hsome⟩
  intro hnone
  by_contra hb
  obtain ⟨t, rest, _, hg, _⟩ := hsome hb
  rw [hg] at hnone
  simp at hnone

/-- C9 on the lines of three spaces and ` ls `: the first gives NULL, the
second an array whose slot 0 is `ls`. -/
theorem getArgs_null_iff_blank_witness :
    numFields "   ".toList ≤ 16 ∧ getArgs "   ".toList = (none, []) ∧
    numFields " ls ".toList ≤ 16 ∧
    (∃ t rest, parseCmd " ls ".toList = t :: rest ∧
      getArgs " ls ".toList = (some (argsArray (t :: rest)), []) ∧
      argAt (argsArray (t :: rest)) 0 = some t) :=
  ⟨by decide, (getArgs_null_iff_blank "   ".toList (by decide)).2.1 (by decide), by decide,
    (getArgs_null_iff_blank " ls ".toList (by decide)).2.2 (by decide)⟩

/-- C10: for a token sequence with at most 3 pipe tokens the descriptor built
by `InitializeJob` and `findAllSpecialCharLocations` holds in `pipes` the
indices of the `|` tokens, in strictly increasing order, followed by -1 in
the remaining slots; `redirect`, `append` and `background` hold the index
of the last `>`, `>>` and `&`, or -1 if there is none; `numCommands` is 1. -/
theorem buildJob_positions (tokens : List Token)
    (hpipes : (tokens.indexesOf opPipe).length ≤ 3) :
    (buildJob (argsOf tokens)).pipes =
      (tokens.indexesOf opPipe).map (fun j : Nat => (j : Int)) ++
        List.replicate (3 - (tokens.indexesOf opPipe).length) (-1) ∧
    List.Pairwise (fun a b => a < b) (tokens.indexesOf opPipe) ∧
    (∀ i : Nat, i ∈ tokens.indexesOf opPipe ↔ tokens.get? i = some opPipe) ∧
    (buildJob (argsOf tokens)).redirect = lastIndexOf opRedirect tokens ∧
    (buildJob (argsOf tokens)).append = lastIndexOf opAppend tokens ∧
    (buildJob (argsOf tokens)).background = lastIndexOf opBackground tokens ∧
    (buildJob (argsOf tokens)).numCommands = 1 := by
  rw [buildJob_eq]
  refine ⟨?_, indexesOf_pairwise _ _, mem_indexesOf_iff _ _, rfl, rfl, rfl, rfl⟩
  simp only
  rw [pipesFrom_eq tokens 0 0 _ (by simpa [MAX_PIPES] using hpipes)]
  simp only [List.take_zero, List.nil_append, Nat.zero_add, MAX_PIPES, List.drop_replicate]

/-- C10 on the lines `echo a | wc -l` and `echo hi > out.txt`: one pipe at
index 2, and redirect at index 2. -/
theorem buildJob_positions_witness :
    ((parseCmd "echo a | wc -l".toList).indexesOf opPipe).length ≤ 3 ∧
    (buildJob (argsOf (parseCmd "echo a | wc -l".toList))).pipes = [2, -1, -1] ∧
    ((parseCmd "echo hi > out.txt".toList).indexesOf opPipe).length ≤ 3 ∧
    (buildJob (argsOf (parseCmd "echo hi > out.txt".toList))).redirect = 2 :=
  ⟨by decide,
    (buildJob_positions (parseCmd "echo a | wc -l".toList) (by decide)).1.trans (by decide),
    by decide,
    (buildJob_positions (parseCmd "echo hi > out.txt".toList) (by decide)).2.2.2.1.trans
      (by decide)⟩

/-- C11, evaluated at the line `a | b | c | d | e` (nine fields): the scan
stores the four pipe positions at the indices 0, 1, 2 and 3 of an array of
`MAX_PIPES` = 3 slots, so the last store is outside the array; the stage
count after `freeAllSpecialChars` is 4 all the same, since that loop stops
at three pipes. -/
theorem fourth_pipe_stored_past_the_array :
    numFields "a | b | c | d | e".toList ≤ 16 ∧
    (getArgs "a | b | c | d | e".toList).1 =
      some (argsOf [['a'], opPipe, ['b'], opPipe, ['c'], opPipe, ['d'], opPipe, ['e']]) ∧
    pipeStoreIndices
      (argsOf [['a'], opPipe, ['b'], opPipe, ['c'], opPipe, ['d'], opPipe, ['e']]) 0 =
      [0, 1, 2, 3] ∧
    InitializeJob.pipes.length = 3 ∧
    ¬ (∀ k ∈ pipeStoreIndices
      (argsOf [['a'], opPipe, ['b'], opPipe, ['c'], opPipe, ['d'], opPipe, ['e']]) 0, k < 3) ∧
    (freeAllSpecialChars
      (argsOf [['a'], opPipe, ['b'], opPipe, ['c'], opPipe, ['d'], opPipe, ['e']])
      (buildJob
        (argsOf [['a'], opPipe, ['b'], opPipe, ['c'], opPipe, ['d'], opPipe, ['e']]))).2.numCommands
      = 4 := by
  refine ⟨by decide, by decide, by decide, by decide, by decide, by decide⟩

/-- C15: `addNewBackground` yields the old list followed by the new node:
the first `head.length` nodes are the old ones, unchanged and in their
order, and the last node is the new one. -/
theorem addNewBackground_appends_at_tail (head : List BackgroundProcess)
    (nextCmd : BackgroundProcess) :
    addNewBackground head nextCmd = head ++ [nextCmd] ∧
    (addNewBackground head nextCmd).take head.length = head ∧
    (addNewBackground head nextCmd).getLast? = some nextCmd ∧
    (addNewBackground head nextCmd).length = head.length + 1 := by
  rw [addNewBackground_append]
  simp

/-- C18, evaluated at the line `a | | b`: the validator accepts it, the
token after the recorded pipe position 1 is the operator `|`, and the second
of the three stages is executed with a NULL program name and an empty
argument vector. -/
theorem adjacent_pipes_give_null_program (openOK : OpenCall → Bool) :
    (getArgs "a | | b".toList).1 = some (argsOf [['a'], opPipe, opPipe, ['b']]) ∧
    (buildJob (argsOf [['a'], opPipe, opPipe, ['b']])).pipes = [1, 2, -1] ∧
    argAt (argsOf [['a'], opPipe, opPipe, ['b']]) (1 + 1) = some opPipe ∧
    checkParsingError openOK (argsOf [['a'], opPipe, opPipe, ['b']])
      (buildJob (argsOf [['a'], opPipe, opPipe, ['b']])) = ⟨SUCCESS, [], []⟩ ∧
    runLine openOK "a | | b".toList =
      some [(some ['a'], [['a']]), (none, []), (some ['b'], [['b']])] := by
  refine ⟨by decide, by decide, by decide, ?_, ?_⟩
  · rfl
  · rfl

/-- C19, evaluated at the line `a|a|a|a|a|a|a|a|a|a|a|a|a|a`: it is a single
field and passes the 16-field check, but `parseCmd` stores 27 strings, so
the stores number 25 and 26 fall outside the 25 slots and no NULL slot is
left. -/
theorem one_field_overflows_args :
    numFields "a|a|a|a|a|a|a|a|a|a|a|a|a|a".toList = 1 ∧
    checkTooManyArgs "a|a|a|a|a|a|a|a|a|a|a|a|a|a".toList = (0, []) ∧
    (parseCmd "a|a|a|a|a|a|a|a|a|a|a|a|a|a".toList).length = 27 ∧
    ¬ ((parseCmd "a|a|a|a|a|a|a|a|a|a|a|a|a|a".toList).length ≤ 24) ∧
    (∀ slot ∈ argsArray (parseCmd "a|a|a|a|a|a|a|a|a|a|a|a|a|a".toList), slot ≠ none) := by
  refine ⟨by decide, by decide, by decide, by decide, by decide⟩

/-- C20: the strings stored by `parseCmd`, concatenated in order, are the
line without its space characters. -/
theorem parseCmd_flatten (cmd : List Char) :
    (parseCmd cmd).flatten = cmd.filter (fun c => c != ' ') := by
  rw [parseCmd_eq_tokensFrom, tokensFrom_join cmd.length [] cmd (Nat.le_refl _)]
  simp

/-- C17: `checkBetweenPipes` is the rule list applied to the recorded pipe
positions in order: it reports the first rule that fires at the first
position where one fires, it succeeds exactly when no rule fires at any
recorded position, and a descriptor whose redirect or append position is
set and lies before a recorded pipe position is rejected by it and by
`checkParsingError`. -/
theorem checkBetweenPipes_eq_rule_list (job : Job) :
    (checkBetweenPipes job =
      match betweenPipesRules job with
      | some e => CheckResult.fail e
      | none => CheckResult.ok) ∧
    ((checkBetweenPipes job).ret = SUCCESS ↔
      ∀ p ∈ recordedPipes job, firstRuleAt job p = none) ∧
    (∀ p ∈ recordedPipes job,
      ((job.redirect ≠ -1 ∧ job.redirect < p) ∨ (job.append ≠ -1 ∧ job.append < p)) →
      (checkBetweenPipes job).ret = FAILURE ∧
      ∀ (openOK : OpenCall → Bool) (args : List (Option Token)),
        (checkParsingError openOK args job).ret = FAILURE) := by
  have hiff : (checkBetweenPipes job).ret = SUCCESS ↔
      ∀ p ∈ recordedPipes job, firstRuleAt job p = none := by
    rw [checkBetweenPipes_rules]
    cases hb : betweenPipesRules job with
    | none =>
      simp only [CheckResult.ok, true_iff]
      unfold betweenPipesRules at hb
      exact List.findSome?_eq_none_iff.mp hb
    | some e =>
      simp only [CheckResult.fail, FAILURE, SUCCESS]
      constructor
      · intro h; omega
      · intro h
        unfold betweenPipesRules at hb
        have := List.findSome?_eq_none_iff.mpr h
        rw [this] at hb
        exact absurd hb (by simp)
  refine ⟨checkBetweenPipes_rules job, hiff, ?_⟩
  intro p hp hlt
  have hfire : firstRuleAt job p ≠ none := by
    unfold firstRuleAt
    split_ifs with h1 h2 h3 h4
    · simp
    · simp
    · simp
    · exact absurd (hlt.symm) h3
    · exact absurd (hlt.symm) h3
  have hfail : (checkBetweenPipes job).ret = FAILURE := by
    have hne : (checkBetweenPipes job).ret ≠ SUCCESS := fun h => hfire (hiff.mp h p hp)
    rw [checkBetweenPipes_rules] at hne ⊢
    cases hb : betweenPipesRules job with
    | none => rw [hb] at hne; exact absurd rfl hne
    | some e => rfl
  refine ⟨hfail, ?_⟩
  intro openOK args
  unfold checkParsingError
  by_cases h1 : (checkAtIndexZero job).ret = 0
  · simp [h1, hfail, FAILURE]
  · simp [h1]

/-- C17 on the descriptor of `a > f | b`: redirect at 1 lies before the pipe
at 3; rule (1) does not fire there, rule (3) does, and the line is
rejected with the mislocated-redirection diagnostic. -/
theorem checkBetweenPipes_eq_rule_list_witness :
    (3 : Int) ∈ recordedPipes (buildJob (argsOf [['a'], opRedirect, ['f'], opPipe, ['b']])) ∧
    checkBetweenPipes (buildJob (argsOf [['a'], opRedirect, ['f'], opPipe, ['b']])) =
      CheckResult.fail ErrMsg.MisplacedRedirection ∧
    (checkBetweenPipes (buildJob (argsOf [['a'], opRedirect, ['f'], opPipe, ['b']]))).ret
      = FAILURE ∧
    ∀ (openOK : OpenCall → Bool) (args : List (Option Token)),
      (checkParsingError openOK args
        (buildJob (argsOf [['a'], opRedirect, ['f'], opPipe, ['b']]))).ret = FAILURE :=
  ⟨by decide, by decide,
    (checkBetweenPipes_eq_rule_list
      (buildJob (argsOf [['a'], opRedirect, ['f'], opPipe, ['b']]))).2.2 3 (by decide)
      (Or.inl (by decide))⟩

/-- C16: with a stage count `n` between 1 and 4, the child forked for stage
`i < n` fills slot `i` and makes exactly the calls of `stageWiring`: input
from the read end of pipe `i - 1` unless it is stage 0, output to the write
end of pipe `i` unless it is the last stage, which alone sends it to the
output target of the pipeline (the slot after the redirect position,
truncated, else the slot after the append position, appended to, else
nothing), then the six closes, then `execvp`; and `n` children are forked. -/
theorem spawnAll_wiring (fork : Nat → Int) (args : List (Option Token)) (job : Job)
    (n i : Nat) (hn : job.numCommands = (n : Int)) (h1 : 1 ≤ n) (h4 : n ≤ 4) (hi : i < n) :
    (spawnAll fork args job).get? i = some ⟨i, fork i, stageWiring n i args job⟩ ∧
    (spawnAll fork args job).length = n := by
  have hout : checkOutputRedirect args job = outputTarget args job := by
    unfold checkOutputRedirect outputTarget
    by_cases hr : job.redirect = -1
    · by_cases ha : job.append = -1
      · simp [hr, ha]
      · simp [hr, ha]
    · simp [hr]
  unfold spawnAll
  interval_cases n <;> interval_cases i <;>
    simp [hn, childBlock0, childBlock1, childBlock2, childBlock3, stageWiring, stageStart,
      outputRedirectCalls, closePipes, pipeNumber, hout]

/-- C16 on four stages: the last stage of `a | b > f` reads pipe 0 and
truncates `f`; the only stage of `a >> f` appends to `f`; the only stage of
`a` keeps standard output; the second of the three stages of
`a | b | c > f` reads pipe 0 (`pipe1`) and writes pipe 1 (`pipe2`) and
applies no redirection. -/
theorem spawnAll_wiring_witness :
    ((prepare [['a'], opPipe, ['b'], opRedirect, ['f']]).2.numCommands = ((2 : Nat) : Int) ∧
      1 ≤ 2 ∧ 2 ≤ 4 ∧ 1 < 2 ∧
      (spawnAll (fun k => 100 + (k : Int)) (prepare [['a'], opPipe, ['b'], opRedirect, ['f']]).1
        (prepare [['a'], opPipe, ['b'], opRedirect, ['f']]).2).get? 1
        = some ⟨1, 101,
            [ChildCall.dup2 ⟨1, false⟩ STDIN_FILENO,
              ChildCall.redirect
                ⟨some ['f'], [OFlag.O_TRUNC, OFlag.O_WRONLY, OFlag.O_CREAT]⟩,
              ChildCall.close ⟨1, false⟩, ChildCall.close ⟨1, true⟩,
              ChildCall.close ⟨2, false⟩, ChildCall.close ⟨2, true⟩,
              ChildCall.close ⟨3, false⟩, ChildCall.close ⟨3, true⟩,
              ChildCall.execvp (some ['b']) [['b']]]⟩) ∧
    ((prepare [['a'], opAppend, ['f']]).2.numCommands = ((1 : Nat) : Int) ∧
      1 ≤ 1 ∧ 1 ≤ 4 ∧ 0 < 1 ∧
      (spawnAll (fun k => 100 + (k : Int)) (prepare [['a'], opAppend, ['f']]).1
        (prepare [['a'], opAppend, ['f']]).2).get? 0
        = some ⟨0, 100,
            [ChildCall.redirect
                ⟨some ['f'], [OFlag.O_WRONLY, OFlag.O_CREAT, OFlag.O_APPEND]⟩,
              ChildCall.close ⟨1, false⟩, ChildCall.close ⟨1, true⟩,
              ChildCall.close ⟨2, false⟩, ChildCall.close ⟨2, true⟩,
              ChildCall.close ⟨3, false⟩, ChildCall.close ⟨3, true⟩,
              ChildCall.execvp (some ['a']) [['a']]]⟩) ∧
    ((prepare [['a']]).2.numCommands = ((1 : Nat) : Int) ∧
      (spawnAll (fun k => 100 + (k : Int)) (prepare [['a']]).1 (prepare [['a']]).2).get? 0
        = some ⟨0, 100,
            [ChildCall.close ⟨1, false⟩, ChildCall.close ⟨1, true⟩,
              ChildCall.close ⟨2, false⟩, ChildCall.close ⟨2, true⟩,
              ChildCall.close ⟨3, false⟩, ChildCall.close ⟨3, true⟩,
              ChildCall.execvp (some ['a']) [['a']]]⟩) ∧
    ((prepare [['a'], opPipe, ['b'], opPipe, ['c'], opRedirect, ['f']]).2.numCommands
        = ((3 : Nat) : Int) ∧
      (spawnAll (fun k => 100 + (k : Int))
        (prepare [['a'], opPipe, ['b'], opPipe, ['c'], opRedirect, ['f']]).1
        (prepare [['a'], opPipe, ['b'], opPipe, ['c'], opRedirect, ['f']]).2).get? 1
        = some ⟨1, 101,
            [ChildCall.dup2 ⟨1, false⟩ STDIN_FILENO, ChildCall.dup2 ⟨2, true⟩ STDOUT_FILENO,
              ChildCall.close ⟨1, false⟩, ChildCall.close ⟨1, true⟩,
              ChildCall.close ⟨2, false⟩, ChildCall.close ⟨2, true⟩,
              ChildCall.close ⟨3, false⟩, ChildCall.close ⟨3, true⟩,
              ChildCall.execvp (some ['b']) [['b']]]⟩) :=
  ⟨⟨by decide, by decide, by decide, by decide,
      ((spawnAll_wiring (fun k => 100 + (k : Int)) _ _ 2 1 (by decide) (by decide) (by decide)
        (by decide)).1).trans (by decide)⟩,
    ⟨by decide, by decide, by decide, by decide,
      ((spawnAll_wiring (fun k => 100 + (k : Int)) _ _ 1 0 (by decide) (by decide) (by decide)
        (by decide)).1).trans (by decide)⟩,
    ⟨by decide,
      ((spawnAll_wiring (fun k => 100 + (k : Int)) _ _ 1 0 (by decide) (by decide) (by decide)
        (by decide)).1).trans (by decide)⟩,
    ⟨by decide,
      ((spawnAll_wiring (fun k => 100 + (k : Int)) _ _ 3 1 (by decide) (by decide) (by decide)
        (by decide)).1).trans (by decide)⟩⟩

/-- C12: for an accepted foreground token sequence with `k ≤ 3` pipe tokens
the stage count after `freeAllSpecialChars` is `k + 1`; `executeCommands`
forks `k + 1` children, for the slots 0 to `k` in order; it waits for
exactly their process ids, in that order; it returns the status array, whose
slot `i` holds what `waitpid` stored for stage `i`, and `printMessage` prints
`k + 1` exit statuses; the list of background jobs is unchanged. -/
theorem foreground_run_statuses (fork : Nat → Int) (waitpid : Int → WaitResult)
    (pidsJunk statusJunk : Nat → Int) (addr : Nat) (cmd : List Char)
    (head : List BackgroundProcess) (openOK : OpenCall → Bool) (tokens : List Token) (k : Nat)
    (hk : (tokens.indexesOf opPipe).length = k) (hk3 : k ≤ 3)
    (_hacc : (checkParsingError openOK (argsOf tokens) (buildJob (argsOf tokens))).ret = SUCCESS)
    (hfg : (buildJob (argsOf tokens)).background = -1) :
    (prepare tokens).2.numCommands = (k : Int) + 1 ∧
    (executeLine fork waitpid pidsJunk statusJunk addr cmd tokens head).children.map
      (fun c => c.slot) = List.range (k + 1) ∧
    (executeLine fork waitpid pidsJunk statusJunk addr cmd tokens head).waited =
      (executeLine fork waitpid pidsJunk statusJunk addr cmd tokens head).children.map
        (fun c => c.pid) ∧
    (executeLine fork waitpid pidsJunk statusJunk addr cmd tokens head).waited.length = k + 1 ∧
    (executeLine fork waitpid pidsJunk statusJunk addr cmd tokens head).head = head ∧
    ∃ status,
      (executeLine fork waitpid pidsJunk statusJunk addr cmd tokens head).result =
        some status ∧
      (∀ (i : Nat) (c : Child),
        (executeLine fork waitpid pidsJunk statusJunk addr cmd tokens head).children.get? i =
          some c →
        ∀ s, (waitpid c.pid).stored = some s → status.getD i 0 = s) ∧
      (printMessage cmd status (prepare tokens).2.numCommands).codes.length = k + 1 := by
  have hn : (prepare tokens).2.numCommands = (k : Int) + 1 := by
    rw [prepare_numCommands tokens (by omega), hk]
  have hbg : (prepare tokens).2.background = -1 := by
    unfold prepare
    rw [(freeAllSpecialChars_job _ _).2.2.2]
    exact hfg
  have hshape := spawnAll_shape fork (prepare tokens).1 (prepare tokens).2 k hk3 hn
  obtain ⟨hw, hh, status, hres, _, hst⟩ :=
    executeCommands_foreground fork waitpid pidsJunk statusJunk addr cmd (prepare tokens).1
      (prepare tokens).2 head k hk3 hn hbg
  have hch : (executeLine fork waitpid pidsJunk statusJunk addr cmd tokens head).children =
      spawnAll fork (prepare tokens).1 (prepare tokens).2 := by
    unfold executeLine executeCommands
    rw [if_pos hbg]
  refine ⟨hn, ?_, ?_, ?_, hh, status, hres, ?_, ?_⟩
  · rw [hch]
    exact hshape.1
  · rw [hch, hshape.2]
    exact hw
  · unfold executeLine
    rw [hw]
    simp
  · intro i c hc s hs
    rw [hch] at hc
    have hlen : i < (spawnAll fork (prepare tokens).1 (prepare tokens).2).length := by
      rw [List.get?_eq_getElem?] at hc
      exact (List.getElem?_eq_some_iff.mp hc).1
    have hlen' : i < k + 1 := by
      have := congrArg List.length hshape.1
      simp at this
      omega
    have hpid : c.pid = fork i := by
      have h2 := congrArg (fun l => l[i]?) hshape.2
      simp only [List.getElem?_map] at h2
      rw [List.get?_eq_getElem?] at hc
      rw [hc] at h2
      simpa [List.getElem?_range hlen'] using h2
    rw [hpid] at hs
    exact hst i s hlen' hs
  · rw [hn]
    simp [printMessage]

/-- C12 on `a | b` with the children 100 and 101: two process ids are waited
for. -/
theorem foreground_run_statuses_witness :
    ([['a'], opPipe, ['b']].indexesOf opPipe).length = 1 ∧ 1 ≤ 3 ∧
    (checkParsingError (fun _ => true) (argsOf [['a'], opPipe, ['b']])
      (buildJob (argsOf [['a'], opPipe, ['b']]))).ret = SUCCESS ∧
    (buildJob (argsOf [['a'], opPipe, ['b']])).background = -1 ∧
    (executeLine (fun k => 100 + (k : Int)) (fun p => ⟨p, some 0⟩) (fun _ => 7) (fun _ => 7)
      5000 "a | b".toList [['a'], opPipe, ['b']] []).waited.length = 1 + 1 :=
  ⟨by decide, by decide, by decide, by decide,
    (foreground_run_statuses (fun k => 100 + (k : Int)) (fun p => ⟨p, some 0⟩) (fun _ => 7)
      (fun _ => 7) 5000 "a | b".toList [] (fun _ => true) [['a'], opPipe, ['b']] 1
      (by decide) (by decide) (by decide) (by decide)).2.2.2.1⟩

/-- C14: `executeCommands` returns NULL and leaves the list of background
jobs extended at its tail by one new node, which carries the command text,
the stage count and, in the slot of every forked child, the process id of
that child, exactly when the background position of the descriptor is set;
when it is unset a status array is returned and the list is unchanged. This
holds for every array and descriptor, accepted or not. -/
theorem background_registers_job (fork : Nat → Int) (waitpid : Int → WaitResult)
    (pidsJunk statusJunk : Nat → Int) (addr : Nat) (cmd : List Char)
    (args : List (Option Token)) (job : Job) (head : List BackgroundProcess) :
    (((executeCommands fork waitpid pidsJunk statusJunk addr cmd args job head).result = none ∧
      ∃ bp : BackgroundProcess,
        (executeCommands fork waitpid pidsJunk statusJunk addr cmd args job head).head =
          head ++ [bp] ∧
        bp.addr = addr ∧ bp.cmd = cmd ∧ bp.numCommands = job.numCommands ∧
        ∀ c ∈ (executeCommands fork waitpid pidsJunk statusJunk addr cmd args job head).children,
          bp.pids.getD c.slot (-1) = c.pid) ↔ job.background ≠ -1) ∧
    (job.background = -1 →
      (∃ status,
        (executeCommands fork waitpid pidsJunk statusJunk addr cmd args job head).result =
          some status) ∧
      (executeCommands fork waitpid pidsJunk statusJunk addr cmd args job head).head = head) := by
  by_cases hb : job.background = -1
  · refine ⟨?_, ?_⟩
    · unfold executeCommands
      rw [if_pos hb]
      simp [hb]
    · intro _
      unfold executeCommands
      rw [if_pos hb]
      exact ⟨⟨_, rfl⟩, rfl⟩
  · refine ⟨?_, fun h => absurd h hb⟩
    unfold executeCommands
    rw [if_neg hb]
    simp only [ne_eq, hb, not_false_eq_true, iff_true, true_and]
    refine ⟨_, addNewBackground_append _ _, rfl, rfl, rfl, ?_⟩
    intro c hc
    have hlen : (pidsAfter (freshArray pidsJunk) (spawnAll fork args job)).length
        ≤ MAX_COMMANDS := by
      rw [pidsAfter_length, freshArray_eq]
      simp [MAX_COMMANDS]
    simp only [newBackground]
    rw [List.take_of_length_le hlen]
    exact pidsAfter_spawnAll fork pidsJunk args job c hc

/-- C14 on `sleep 5 &` and on `ls`: the first line adds one node for the
child 100 to the empty list and returns NULL, the second returns a status
array and leaves the list empty. -/
theorem background_registers_job_witness :
    (prepare [['s', 'l', 'e', 'e', 'p'], ['5'], opBackground]).2.background ≠ -1 ∧
    ((executeLine (fun k => 100 + (k : Int)) (fun p => ⟨p, some 0⟩) (fun _ => 7) (fun _ => 9)
        5000 "sleep 5 &".toList [['s', 'l', 'e', 'e', 'p'], ['5'], opBackground] []).result
        = none ∧
      ∃ bp : BackgroundProcess,
        (executeLine (fun k => 100 + (k : Int)) (fun p => ⟨p, some 0⟩) (fun _ => 7)
          (fun _ => 9) 5000 "sleep 5 &".toList
          [['s', 'l', 'e', 'e', 'p'], ['5'], opBackground] []).head = [] ++ [bp] ∧
        bp.addr = 5000 ∧ bp.cmd = "sleep 5 &".toList ∧
        bp.numCommands = (prepare [['s', 'l', 'e', 'e', 'p'], ['5'], opBackground]).2.numCommands ∧
        ∀ c ∈ (executeLine (fun k => 100 + (k : Int)) (fun p => ⟨p, some 0⟩) (fun _ => 7)
          (fun _ => 9) 5000 "sleep 5 &".toList
          [['s', 'l', 'e', 'e', 'p'], ['5'], opBackground] []).children,
          bp.pids.getD c.slot (-1) = c.pid) ∧
    (prepare [['l', 's']]).2.background = -1 ∧
    (executeLine (fun k => 100 + (k : Int)) (fun p => ⟨p, some 0⟩) (fun _ => 7) (fun _ => 9)
      5000 "ls".toList [['l', 's']] []).head = [] :=
  ⟨by decide,
    (background_registers_job (fun k => 100 + (k : Int)) (fun p => ⟨p, some 0⟩) (fun _ => 7)
      (fun _ => 9) 5000 "sleep 5 &".toList
      (prepare [['s', 'l', 'e', 'e', 'p'], ['5'], opBackground]).1
      (prepare [['s', 'l', 'e', 'e', 'p'], ['5'], opBackground]).2 []).1.mpr (by decide),
    by decide,
    ((background_registers_job (fun k => 100 + (k : Int)) (fun p => ⟨p, some 0⟩) (fun _ => 7)
      (fun _ => 9) 5000 "ls".toList (prepare [['l', 's']]).1 (prepare [['l', 's']]).2 []).2
      (by decide)).2⟩

/-- C13: on a list whose nodes have distinct addresses, one pass of
`checkAllBackground` leaves exactly the jobs that are still running, polled
and in their original order, and prints one completion report for each of
the other jobs, in their original order; a job is still running exactly when
after its poll one of its commands has a pid other than -1, so no job with
a pending stage is removed; and the empty list stays empty. -/
theorem checkAllBackground_keeps_running (wnohang : Int → WaitResult)
    (head : List BackgroundProcess) (hnd : (head.map (fun x => x.addr)).Nodup) :
    (checkAllBackground wnohang head).1 =
      (head.filter (stillRunning wnohang)).map (polled wnohang) ∧
    (checkAllBackground wnohang head).2 =
      (head.filter (fun bp => !stillRunning wnohang bp)).map (completionOf wnohang) ∧
    (checkAllBackground wnohang head).1.map (fun x => x.addr) =
      (head.filter (stillRunning wnohang)).map (fun x => x.addr) ∧
    (∀ bp : BackgroundProcess, stillRunning wnohang bp = true ↔
      ∃ j, j < bp.numCommands.toNat ∧ (polled wnohang bp).pids.getD j (-1) ≠ -1) ∧
    (∀ bp ∈ head, stillRunning wnohang bp = true →
      bp.addr ∈ (checkAllBackground wnohang head).1.map (fun x => x.addr)) ∧
    checkAllBackground wnohang [] = ([], []) := by
  have hspec := checkAllLoop_spec wnohang head [] [] (head.length + 1)
    (by simpa using hnd) (by omega)
  simp only [List.nil_append] at hspec
  have h1 : (checkAllBackground wnohang head).1 =
      (head.filter (stillRunning wnohang)).map (polled wnohang) := by
    unfold checkAllBackground
    rw [hspec]
  have h2 : (checkAllBackground wnohang head).2 =
      (head.filter (fun bp => !stillRunning wnohang bp)).map (completionOf wnohang) := by
    unfold checkAllBackground
    rw [hspec]
  have h3 : (checkAllBackground wnohang head).1.map (fun x => x.addr) =
      (head.filter (stillRunning wnohang)).map (fun x => x.addr) := by
    rw [h1, List.map_map]
    apply List.map_congr_left
    intro bp _
    exact (checkCompletion_spec wnohang bp).1
  refine ⟨h1, h2, h3, stillRunning_iff_polled wnohang, ?_, rfl⟩
  intro bp hbp hs
  rw [h3]
  exact List.mem_map_of_mem (fun x => x.addr) (List.mem_filter.mpr ⟨hbp, hs⟩)

/-- C13 on two jobs: the one-command job at address 1, whose child 10 has
finished, is removed and reported; the job at address 2, whose child 11 is
still running, stays. -/
theorem checkAllBackground_keeps_running_witness :
    (([⟨1, ['a'], [10, 7, 7, 7], [0, 0, 0, 0], 1⟩,
        ⟨2, ['b'], [11, 12, 7, 7], [0, 0, 0, 0], 2⟩] : List BackgroundProcess).map
      (fun x => x.addr)).Nodup ∧
    (checkAllBackground (fun p => if p = 11 then ⟨0, none⟩ else ⟨p, some 256⟩)
      [⟨1, ['a'], [10, 7, 7, 7], [0, 0, 0, 0], 1⟩,
        ⟨2, ['b'], [11, 12, 7, 7], [0, 0, 0, 0], 2⟩]).1.map (fun x => x.addr) = [2] ∧
    (checkAllBackground (fun p => if p = 11 then ⟨0, none⟩ else ⟨p, some 256⟩)
      [⟨1, ['a'], [10, 7, 7, 7], [0, 0, 0, 0], 1⟩,
        ⟨2, ['b'], [11, 12, 7, 7], [0, 0, 0, 0], 2⟩]).2 = [⟨['a'], [1]⟩] :=
  ⟨by decide,
    ((checkAllBackground_keeps_running (fun p => if p = 11 then ⟨0, none⟩ else ⟨p, some 256⟩)
      [⟨1, ['a'], [10, 7, 7, 7], [0, 0, 0, 0], 1⟩,
        ⟨2, ['b'], [11, 12, 7, 7], [0, 0, 0, 0], 2⟩] (by decide)).2.2.1).trans (by decide),
    by decide⟩

end Sshell
